import Mathlib

/-!
Verification of the MediaCleaner media metadata inference engine
(`media_cleaner.py`).  Strings are modelled as lists of characters and the
Python functions are embedded as executable Lean functions: the quality
scorer `get_quality_score`, the episode parser `get_episode_info`, the
title normalizer `get_normalized_title`, the folder-name cleaner used by
`clean_folder_names`, and the duplicate grouping of
`find_duplicate_movies` / `show_duplicate_report`.
-/

namespace MediaCleaner

abbrev Str := List Char

/-- ASCII whitespace as recognized by Python regex `\s` and `str.strip`. -/
def pyIsSpace (c : Char) : Bool :=
  c = ' ' || c = '\t' || c = '\n' || c = '\r' || c = '\x0b' || c = '\x0c'

/-- ASCII decimal digit, Python regex `\d` (ASCII range). -/
def isDigitC (c : Char) : Bool :=
  '0' ≤ c && c ≤ '9'

/-- ASCII case folding performed by `str.lower` (restricted to the ASCII
letters, which is all the engine's fixed tag tables use). -/
def lowerC (c : Char) : Char :=
  if 'A' ≤ c && c ≤ 'Z' then Char.ofNat (c.toNat + 32) else c

/-- Python `needle in hay`: `needle` occurs as a contiguous substring. -/
def hasSubstr : Str → Str → Bool
  | [], needle => needle.isEmpty
  | c :: cs, needle => needle.isPrefixOf (c :: cs) || hasSubstr cs needle

/-- Python `any(x in hay for x in needles)`. -/
def containsAny (hay : Str) (needles : List Str) : Bool :=
  needles.any (fun n => hasSubstr hay n)

/-!
## Quality scorer (`get_quality_score`, media_cleaner.py lines 239-351)

The Python function lowercases the filename once and then runs five
independent if/elif chains, one per category.  Each chain is embedded as a
function returning the matched tier (label, points, detail line) or `none`.
-/

structure QualityScore where
  score : Nat
  resolution : Str
  codec : Str
  source : Str
  audio : Str
  hdr : Bool
  details : List Str
deriving DecidableEq

/-- Resolution chain: 2160p/4k/uhd:100, 1080p:80, 720p:60, 480p/dvd:40. -/
def resolutionTier (fl : Str) : Option (Str × Nat × Str) :=
  if containsAny fl ["2160p".data, "4k".data, "uhd".data] then
    some ("2160p".data, 100, "4K/2160p (+100)".data)
  else if hasSubstr fl "1080p".data then some ("1080p".data, 80, "1080p (+80)".data)
  else if hasSubstr fl "720p".data then some ("720p".data, 60, "720p (+60)".data)
  else if containsAny fl ["480p".data, "dvd".data] then some ("480p".data, 40, "480p (+40)".data)
  else none

/-- Source chain: bluray family:30, web-dl:25, webrip:20, hdtv:15, dvdrip:10. -/
def sourceTier (fl : Str) : Option (Str × Nat × Str) :=
  if containsAny fl ["bluray".data, "blu-ray".data, "bdrip".data, "brrip".data] then
    some ("BluRay".data, 30, "BluRay (+30)".data)
  else if containsAny fl ["web-dl".data, "webdl".data] then
    some ("WEB-DL".data, 25, "WEB-DL (+25)".data)
  else if hasSubstr fl "webrip".data then some ("WEBRip".data, 20, "WEBRip (+20)".data)
  else if hasSubstr fl "hdtv".data then some ("HDTV".data, 15, "HDTV (+15)".data)
  else if hasSubstr fl "dvdrip".data then some ("DVDRip".data, 10, "DVDRip (+10)".data)
  else none

/-- Codec chain: x265 family:20, x264 family:15, xvid/divx:5. -/
def codecTier (fl : Str) : Option (Str × Nat × Str) :=
  if containsAny fl ["x265".data, "h265".data, "h.265".data, "hevc".data] then
    some ("HEVC/x265".data, 20, "HEVC/x265 (+20)".data)
  else if containsAny fl ["x264".data, "h264".data, "h.264".data, "avc".data] then
    some ("x264".data, 15, "x264 (+15)".data)
  else if containsAny fl ["xvid".data, "divx".data] then some ("XviD".data, 5, "XviD (+5)".data)
  else none

/-- Audio chain: atmos:15, truehd:12, dts-hd:10, dts:8, ac3 family:5, aac:3. -/
def audioTier (fl : Str) : Option (Str × Nat × Str) :=
  if hasSubstr fl "atmos".data then some ("Atmos".data, 15, "Atmos (+15)".data)
  else if hasSubstr fl "truehd".data then some ("TrueHD".data, 12, "TrueHD (+12)".data)
  else if containsAny fl ["dts-hd".data, "dtshd".data] then
    some ("DTS-HD".data, 10, "DTS-HD (+10)".data)
  else if hasSubstr fl "dts".data then some ("DTS".data, 8, "DTS (+8)".data)
  else if containsAny fl ["ac3".data, "dd5.1".data, "dd5 1".data] then
    some ("AC3".data, 5, "AC3 (+5)".data)
  else if hasSubstr fl "aac".data then some ("AAC".data, 3, "AAC (+3)".data)
  else none

/-- HDR chain: hdr10+:15, dolby vision:15, hdr10:12, hdr:10; any hit sets the flag. -/
def hdrTier (fl : Str) : Option (Nat × Str) :=
  if containsAny fl ["hdr10+".data, "hdr10plus".data] then some (15, "HDR10+ (+15)".data)
  else if containsAny fl ["dolby vision".data, "dolbyvision".data, "dovi".data, " dv ".data] then
    some (15, "Dolby Vision (+15)".data)
  else if hasSubstr fl "hdr10".data then some (12, "HDR10 (+12)".data)
  else if hasSubstr fl "hdr".data then some (10, "HDR (+10)".data)
  else none

def tierPts (t : Option (Str × Nat × Str)) : Nat :=
  match t with
  | some (_, p, _) => p
  | none => 0

def tierLabel (t : Option (Str × Nat × Str)) : Str :=
  match t with
  | some (l, _, _) => l
  | none => "Unknown".data

def tierDetail (t : Option (Str × Nat × Str)) : List Str :=
  match t with
  | some (_, _, d) => [d]
  | none => []

def hdrPts (t : Option (Nat × Str)) : Nat :=
  match t with
  | some (p, _) => p
  | none => 0

def hdrDetail (t : Option (Nat × Str)) : List Str :=
  match t with
  | some (_, d) => [d]
  | none => []

/-- Embeds `get_quality_score`: additive score over the five categories, with the
category labels, HDR flag and the contributing-factor lines in
category-evaluation order. -/
def get_quality_score (filename : Str) : QualityScore :=
  let fl := filename.map lowerC
  let r := resolutionTier fl
  let s := sourceTier fl
  let c := codecTier fl
  let a := audioTier fl
  let h := hdrTier fl
  { score := tierPts r + tierPts s + tierPts c + tierPts a + hdrPts h
    resolution := tierLabel r
    codec := tierLabel c
    source := tierLabel s
    audio := tierLabel a
    hdr := h.isSome
    details := tierDetail r ++ tierDetail s ++ tierDetail c ++ tierDetail a ++ hdrDetail h }

/-!
## Path stem

`get_episode_info` and `get_normalized_title` work on `Path(name).stem`:
the last path component (with empty and single-dot components collapsed as
pathlib does) minus its extension, where the suffix from the last dot is
dropped only when that dot is neither the first nor the last character of
the component.
-/

/-- Split a path on `/` separators. -/
def splitSlash : Str → List Str
  | [] => [[]]
  | c :: cs =>
    if c = '/' then [] :: splitSlash cs
    else
      match splitSlash cs with
      | p :: ps => (c :: p) :: ps
      | [] => [[c]]

/-- Computes `PurePosixPath(name).name`: the last component after collapsing empty
and single-dot components. -/
def pathName (l : Str) : Str :=
  (((splitSlash l).filter (fun p => !p.isEmpty && !(p == ['.']))).getLast?).getD []

/-- Split a name at its last dot, when one occurs. -/
def lastDotSplit : Str → Option (Str × Str)
  | [] => none
  | c :: cs =>
    match lastDotSplit cs with
    | some (p, q) => some (c :: p, q)
    | none => if c = '.' then some ([], cs) else none

/-- The extension-dropping rule of `Path(...).stem`. -/
def dropExt (n : Str) : Str :=
  match lastDotSplit n with
  | some (p, q) => if p ≠ [] ∧ q ≠ [] then p else n
  | none => n

def pathStem (l : Str) : Str := dropExt (pathName l)

/-!
## Title normalizer (`get_normalized_title`, media_cleaner.py lines 415-440)
-/

/-- Start-anchored `(19|20)\d{2}`. -/
def yearAt : Str → Bool
  | a :: b :: c :: d :: _ =>
    ((a = '1' && b = '9') || (a = '2' && b = '0')) && isDigitC c && isDigitC d
  | _ => false

/-- Start-anchored `[\(\[]?(19|20)\d{2}`. -/
def bracketYearAt (l : Str) : Bool :=
  yearAt l ||
    (match l with
     | c :: cs => (c = '(' || c = '[') && yearAt cs
     | [] => false)

/-- Embeds `re.search(r'(19|20)\d{2}', ...)`: the first year-like token. -/
def findYear : Str → Option Str
  | [] => none
  | c :: cs => if yearAt (c :: cs) then some ((c :: cs).take 4) else findYear cs

/-- Holds when `.*$` (no DOTALL, no MULTILINE) can consume the whole string:
`.` never matches a newline and `$` matches only at the end of the string or
just before a newline that is the last character, so the string must contain
no newline except possibly a single final one. -/
def noInteriorNl : Str → Bool
  | [] => true
  | [_] => true
  | c :: cs => c ≠ '\n' && noInteriorNl cs

/-- Computes what the group `(.*)` captures out of a remainder accepted by
`.*$`: everything except a single final newline, which `$` matches before
but `.` cannot consume. -/
def stripTrailNl (l : Str) : Str :=
  if l.getLast? = some '\n' then l.dropLast else l

/-- Embeds `re.sub(r'[\(\[]?(19|20)\d{2}[\)\]]?.*$', '', ...)`: truncate before the
leftmost (optionally bracketed) year whose remainder the trailing `.*$` can
consume, i.e. whose suffix has no newline except possibly a single final one
(the year and bracket characters are never newlines, so the `noInteriorNl`
test may be taken at the match position). When the match stops before a
final newline, that newline is outside the match and survives the
substitution. -/
def truncYear : Str → Str
  | [] => []
  | c :: cs =>
    if bracketYearAt (c :: cs) && noInteriorNl (c :: cs) then
      if (c :: cs).getLast? = some '\n' then ['\n'] else []
    else c :: truncYear cs

/-- Case-insensitive prefix test against an already-lowercased needle. -/
def isPrefixCI : Str → Str → Bool
  | [], _ => true
  | _ :: _, [] => false
  | t :: ts, c :: cs => (lowerC c == t) && isPrefixCI ts cs

/-- The tag alternation of the normalizer's truncation regex, lowercased. -/
def normTags : List Str :=
  ["720p".data, "1080p".data, "2160p".data, "4k".data, "hdrip".data, "dvdrip".data,
   "brrip".data, "bluray".data, "web-dl".data, "webrip".data, "x264".data, "x265".data,
   "hevc".data]

def tagAt (tags : List Str) (l : Str) : Bool :=
  tags.any (fun t => isPrefixCI t l)

/-- Start-anchored `\s*(tag1|tag2|...).*$` (case-insensitive): a whitespace run
(which may contain newlines, `\s` matches them) leading to a tag whose
remainder `.*$` can consume; tag characters are never newlines, so the
`noInteriorNl` test is taken at the tag position. -/
def wsTagAt (tags : List Str) : Str → Bool
  | [] => false
  | c :: cs =>
    (tagAt tags (c :: cs) && noInteriorNl (c :: cs)) || (pyIsSpace c && wsTagAt tags cs)

/-- Embeds `re.sub(r'\s*(tags...).*$', '', ..., flags=IGNORECASE)`: truncate before
the leftmost whitespace-padded tag occurrence that `.*$` can complete; a
single final newline lies outside the match and survives. -/
def truncTags (tags : List Str) : Str → Str
  | [] => []
  | c :: cs =>
    if wsTagAt tags (c :: cs) then
      if (c :: cs).getLast? = some '\n' then ['\n'] else []
    else c :: truncTags tags cs

/-- Embeds `re.sub(r'\.', ' ', ...)` pointwise. -/
def dotSp (c : Char) : Char := if c = '.' then ' ' else c

/-- Embeds `re.sub(r'[_-]', ' ', ...)` pointwise. -/
def dashSp (c : Char) : Char := if c = '_' || c = '-' then ' ' else c

/-- Embeds `re.sub(r'\s+', ' ', ...)`: collapse every whitespace run to one space
(a run of consecutive whitespace characters contributes a single space at
the position where it ends). -/
def collapseWs : Str → Str
  | [] => []
  | [c] => if pyIsSpace c then [' '] else [c]
  | c :: d :: cs =>
    if pyIsSpace c then
      if pyIsSpace d then collapseWs (d :: cs)
      else ' ' :: collapseWs (d :: cs)
    else c :: collapseWs (d :: cs)

/-- Python `str.strip()`. -/
def trimWs (l : Str) : Str :=
  ((l.dropWhile pyIsSpace).reverse.dropWhile pyIsSpace).reverse

/-- One alternative of `re.sub(r'^(the|a|an)\s+', '', ...)`: the word `w`
followed by at least one whitespace character, all of which `\s+` consumes
greedily. -/
def stripWord (w : Str) (l : Str) : Option Str :=
  if w.isPrefixOf l then
    match l.drop w.length with
    | c :: cs => if pyIsSpace c then some (cs.dropWhile pyIsSpace) else none
    | [] => none
  else none

/-- The alternation `(the|a|an)` tried left to right with backtracking. -/
def articleSplit (l : Str) : Option Str :=
  match stripWord "the".data l with
  | some r => some r
  | none =>
    match stripWord "a".data l with
    | some r => some r
    | none => stripWord "an".data l

def stripArticle (l : Str) : Str := (articleSplit l).getD l

structure TitleKey where
  normalized_title : Str
  year : Option Str
deriving DecidableEq

/-- Embeds `get_normalized_title`: extract year, truncate at year and release tags,
replace dots/underscores/hyphens with spaces, collapse whitespace, strip,
lowercase, and drop one leading article. -/
def get_normalized_title (name : Str) : TitleKey :=
  let basename := pathStem name
  let year := findYear basename
  let t1 := truncYear basename
  let t2 := truncTags normTags t1
  let t3 := t2.map dotSp
  let t4 := t3.map dashSp
  let t5 := collapseWs t4
  let t6 := (trimWs t5).map lowerC
  let t7 := stripArticle t6
  ⟨t7, year⟩

/-!
## Folder name cleaner (`clean_folder_names`, media_cleaner.py lines 709-758)

The per-folder name rewriting: for each configured tag in order, if the tag
occurs case-insensitively, split at its first occurrence and keep the
prefix when it is non-empty after stripping spaces/dots/hyphens; then
replace dots by spaces (when a dot occurs) and parenthesize a bare trailing
year.
-/

def hasSubstrCI (hay : Str) (tag : Str) : Bool :=
  hasSubstr (hay.map lowerC) (tag.map lowerC)

/-- Computes `pattern.split(new_name)[0]` for `pattern = re.escape(tag)` with
IGNORECASE: the prefix before the first case-insensitive occurrence. -/
def beforeTagCI (tag : Str) : Str → Str
  | [] => []
  | c :: cs => if isPrefixCI (tag.map lowerC) (c :: cs) then [] else c :: beforeTagCI tag cs

def isSpDotDash (c : Char) : Bool := c = ' ' || c = '.' || c = '-'

/-- Python `str.strip(chars)`. -/
def trimChars (p : Char → Bool) (l : Str) : Str :=
  ((l.dropWhile p).reverse.dropWhile p).reverse

/-- One iteration of the tag-removal loop. -/
def removeTag (cur : Str) (tag : Str) : Str :=
  if hasSubstrCI cur tag then
    let pre := trimChars isSpDotDash (beforeTagCI tag cur)
    if pre ≠ [] then pre else cur
  else cur

/-- Embeds `re.sub(r'\s((19|20)\d{2})$', r' (\1)', ...)` guarded by the matching
`re.search(r'\s(19|20)(\d{2})$', ...)`: `$` without MULTILINE also matches
just before a newline that is the last character, so a year directly before
a single trailing newline is parenthesized as well (the newline stays). -/
def yearParen (n : Str) : Str :=
  match n.reverse with
  | '\n' :: d :: c :: b :: a :: w :: rest =>
    if pyIsSpace w && (((a = '1') && (b = '9')) || ((a = '2') && (b = '0'))) &&
        isDigitC c && isDigitC d then
      rest.reverse ++ (' ' :: '(' :: a :: b :: c :: d :: ')' :: ['\n'])
    else n
  | d :: c :: b :: a :: w :: rest =>
    if pyIsSpace w && (((a = '1') && (b = '9')) || ((a = '2') && (b = '0'))) &&
        isDigitC c && isDigitC d then
      rest.reverse ++ (' ' :: '(' :: a :: b :: c :: d :: [')'])
    else n
  | _ => n

/-- The name rewriting performed by `clean_folder_names` for one folder
name, parameterized by the ordered tag list (`config.tags`). -/
def clean_folder_name (name : Str) (tags : List Str) : Str :=
  let n1 := tags.foldl removeTag name
  let n2 := if '.' ∈ n1 then trimWs (collapseWs (n1.map dotSp)) else n1
  yearParen n2

/-!
## Duplicate grouping (`find_duplicate_movies` lines 951-999 and
`show_duplicate_report` lines 1016-1034)

`find_duplicate_movies` keys each folder by its normalized title (plus
`"|year"` when a year was found), buckets entries in a dict preserving key
insertion order, and keeps the buckets with two or more members.
`show_duplicate_report` sorts each bucket by quality score descending with
Python's stable sort.
-/

structure FolderInfo where
  name : Str
  path : Str
  size : Nat
deriving DecidableEq

structure DupEntry where
  path : Str
  original_name : Str
  year : Option Str
  quality : QualityScore
  file_size : Nat
deriving DecidableEq

/-- The dict key: `normalized_title` or `normalized_title|year`. -/
def entryKey (name : Str) : Str :=
  let ti := get_normalized_title name
  match ti.year with
  | some y => ti.normalized_title ++ '|' :: y
  | none => ti.normalized_title

def mkEntry (f : FolderInfo) : DupEntry :=
  { path := f.path
    original_name := f.name
    year := (get_normalized_title f.name).year
    quality := get_quality_score f.name
    file_size := f.size }

/-- Append an entry to its key's bucket, preserving dict insertion order. -/
def addEntry (m : List (Str × List DupEntry)) (k : Str) (e : DupEntry) :
    List (Str × List DupEntry) :=
  match m with
  | [] => [(k, [e])]
  | (k', es) :: rest =>
    if k' = k then (k', es ++ [e]) :: rest else (k', es) :: addEntry rest k e

def buildLookup (fs : List FolderInfo) : List (Str × List DupEntry) :=
  fs.foldl (fun m f => addEntry m (entryKey f.name) (mkEntry f)) []

/-- Embeds `find_duplicate_movies`: the buckets with two or more members, in key
insertion order. -/
def find_duplicate_movies (fs : List FolderInfo) : List (List DupEntry) :=
  ((buildLookup fs).map Prod.snd).filter (fun es => decide (1 < es.length))

/-- Stable insertion of `x` after every strictly higher-scored entry. -/
def insertDesc (x : DupEntry) : List DupEntry → List DupEntry
  | [] => [x]
  | y :: ys =>
    if x.quality.score < y.quality.score then y :: insertDesc x ys else x :: y :: ys

/-- Embeds `sorted(group, key=lambda x: x['quality']['score'], reverse=True)`:
stable descending sort by quality score. -/
def rank_group : List DupEntry → List DupEntry
  | [] => []
  | x :: xs => insertDesc x (rank_group xs)

/-!
## Episode parser (`get_episode_info`, media_cleaner.py lines 358-412)

Three anchored patterns tried in order on the stem, first match wins:
1. `^(.+?)[.\s_-]+[Ss](\d{1,2})[Ee](\d{1,2})(?:[Ee-](\d{1,2}))?(?:[Ee-](\d{1,2}))?(.*)$`
2. `^(.+?)[.\s_-]+(\d{1,2})x(\d{1,2})(.*)$`
3. `^(.+?)[.\s_-]+Season\s*(\d{1,2})[.\s_-]+Episode\s*(\d{1,2})(.*)$` (IGNORECASE)

The lazy `(.+?)` is a left-to-right scan for the earliest separator-run
followed by the season/episode marker; `[.\s_-]+` runs are maximal because
no marker starts with a separator character; `(\d{1,2})` prefers two digits
and backtracks to one only where the continuation can fail (after the
season number).
-/

structure EpisodeInfo where
  season : Option Nat
  episode : Option Nat
  episodes : List Nat
  show_title : Option Str
  episode_title : Option Str
  is_multi_episode : Bool
deriving DecidableEq

/-- The separator class `[.\s_-]`. -/
def isSepC (c : Char) : Bool := c = '.' || c = '_' || c = '-' || pyIsSpace c

def digitVal (c : Char) : Nat := c.toNat - 48

/-- Greedy `(\d{1,2})` whose continuation cannot fail: two digits when
available, else one, else no match. -/
def takeNum12 : Str → Option (Nat × Str)
  | [] => none
  | [a] => if isDigitC a then some (digitVal a, []) else none
  | a :: b :: rest =>
    if isDigitC a && isDigitC b then some (10 * digitVal a + digitVal b, rest)
    else if isDigitC a then some (digitVal a, b :: rest)
    else none

/-- The optional group `(?:[Ee-](\d{1,2}))?` of pattern 1. -/
def tryExtraEp (l : Str) : Option Nat × Str :=
  match l with
  | [] => (none, [])
  | c :: cs =>
    if c = 'E' || c = 'e' || c = '-' then
      match takeNum12 cs with
      | some (n, rest) => (some n, rest)
      | none => (none, c :: cs)
    else (none, c :: cs)

structure P1Marker where
  season : Nat
  episode : Nat
  ep2 : Option Nat
  ep3 : Option Nat
  rest : Str
deriving DecidableEq

/-- Matches `[Ee](\d{1,2})(?:[Ee-](\d{1,2}))?(?:[Ee-](\d{1,2}))?(.*)$` after the
season number. -/
def p1AfterSeason (season : Nat) (l : Str) : Option P1Marker :=
  match l with
  | [] => none
  | c :: cs =>
    if c = 'E' || c = 'e' then
      match takeNum12 cs with
      | some (ep, r1) =>
        let e2r := tryExtraEp r1
        let e3r := tryExtraEp e2r.2
        some ⟨season, ep, e2r.1, e3r.1, stripTrailNl e3r.2⟩
      | none => none
    else none

/-- Matches `[Ss](\d{1,2})[Ee]...`: the two-digit season is preferred, backtracking
to one digit when the episode part fails after it. -/
def p1Marker : Str → Option P1Marker
  | [] => none
  | s :: rest =>
    if s = 'S' || s = 's' then
      match rest with
      | [] => none
      | [a] => if isDigitC a then p1AfterSeason (digitVal a) [] else none
      | a :: b :: r2 =>
        if isDigitC a && isDigitC b then
          match p1AfterSeason (10 * digitVal a + digitVal b) r2 with
          | some m => some m
          | none => p1AfterSeason (digitVal a) (b :: r2)
        else if isDigitC a then p1AfterSeason (digitVal a) (b :: r2)
        else none
    else none

/-- Matches `[.\s_-]+` followed by the pattern-1 marker and its `(.*)$` tail; the
separator run is maximal since `[Ss]` never matches a separator (and it may
contain newlines, `\s` matches them). All marker characters are non-newline,
so the `(.*)$` requirement — no newline after the marker except a single
final one — is equivalent to `noInteriorNl` at the marker position. -/
def sepThenP1 (l : Str) : Option P1Marker :=
  match l with
  | [] => none
  | c :: cs =>
    if isSepC c then
      let r := cs.dropWhile isSepC
      if noInteriorNl r then p1Marker r else none
    else none

/-- The lazy `^(.+?)` scan of pattern 1: at each split with a non-empty
title prefix (accumulated reversed in `acc`), try separator-run + marker;
the leftmost success wins. `.` in `(.+?)` never matches a newline, so once
the scan would absorb a newline into the title every later split fails
too and the scan stops. -/
def p1Scan (acc : Str) : Str → Option (Str × P1Marker)
  | [] => none
  | c :: cs =>
    match sepThenP1 (c :: cs) with
    | some m => some (acc.reverse, m)
    | none => if c = '\n' then none else p1Scan (c :: acc) cs

def p1 : Str → Option (Str × P1Marker)
  | [] => none
  | c :: cs => if c = '\n' then none else p1Scan [c] cs

structure P2Marker where
  season : Nat
  episode : Nat
  rest : Str
deriving DecidableEq

/-- Matches `x(\d{1,2})(.*)$` (the `x` is case-sensitive). -/
def p2AfterSeason (season : Nat) (l : Str) : Option P2Marker :=
  match l with
  | [] => none
  | c :: cs =>
    if c = 'x' then
      match takeNum12 cs with
      | some (ep, r) => some ⟨season, ep, stripTrailNl r⟩
      | none => none
    else none

/-- Matches `(\d{1,2})x(\d{1,2})(.*)$` with digit-group backtracking. -/
def p2Marker : Str → Option P2Marker
  | [] => none
  | [a] => if isDigitC a then p2AfterSeason (digitVal a) [] else none
  | a :: b :: r2 =>
    if isDigitC a && isDigitC b then
      match p2AfterSeason (10 * digitVal a + digitVal b) r2 with
      | some m => some m
      | none => p2AfterSeason (digitVal a) (b :: r2)
    else if isDigitC a then p2AfterSeason (digitVal a) (b :: r2)
    else none

/-- Matches `[.\s_-]+` then the pattern-2 marker with its `(.*)$` tail; as in
pattern 1, the marker characters (digits and `x`) are never newlines, so
`(.*)$` amounts to `noInteriorNl` at the marker position. -/
def sepThenP2 (l : Str) : Option P2Marker :=
  match l with
  | [] => none
  | c :: cs =>
    if isSepC c then
      let r := cs.dropWhile isSepC
      if noInteriorNl r then p2Marker r else none
    else none

def p2Scan (acc : Str) : Str → Option (Str × P2Marker)
  | [] => none
  | c :: cs =>
    match sepThenP2 (c :: cs) with
    | some m => some (acc.reverse, m)
    | none => if c = '\n' then none else p2Scan (c :: acc) cs

def p2 : Str → Option (Str × P2Marker)
  | [] => none
  | c :: cs => if c = '\n' then none else p2Scan [c] cs

structure P3Marker where
  season : Nat
  episode : Nat
  rest : Str
deriving DecidableEq

/-- Matches `\s*(\d{1,2})(.*)$` after the word "episode": the `\s*` run may
contain newlines, but from the episode digits on only `(.*)$` consumes, so
the remainder from the digits must have no newline except a single final
one (digits are non-newline, so the test is taken before them). -/
def p3AfterEpisodeWord (season : Nat) (l : Str) : Option P3Marker :=
  let r0 := l.dropWhile pyIsSpace
  if noInteriorNl r0 then
    match takeNum12 r0 with
    | some (ep, r) => some ⟨season, ep, stripTrailNl r⟩
    | none => none
  else none

/-- Matches `[.\s_-]+Episode\s*(\d{1,2})(.*)$` after the season number
(case-insensitive word). -/
def p3AfterSeasonNum (season : Nat) (l : Str) : Option P3Marker :=
  match l with
  | [] => none
  | c :: cs =>
    if isSepC c then
      let r := cs.dropWhile isSepC
      if isPrefixCI "episode".data r then p3AfterEpisodeWord season (r.drop 7)
      else none
    else none

/-- Matches `\s*(\d{1,2})` then the episode part, after the word "season". -/
def p3Marker (l : Str) : Option P3Marker :=
  match l.dropWhile pyIsSpace with
  | [] => none
  | [a] => if isDigitC a then p3AfterSeasonNum (digitVal a) [] else none
  | a :: b :: r2 =>
    if isDigitC a && isDigitC b then
      match p3AfterSeasonNum (10 * digitVal a + digitVal b) r2 with
      | some m => some m
      | none => p3AfterSeasonNum (digitVal a) (b :: r2)
    else if isDigitC a then p3AfterSeasonNum (digitVal a) (b :: r2)
    else none

def sepThenP3 (l : Str) : Option P3Marker :=
  match l with
  | [] => none
  | c :: cs =>
    if isSepC c then
      let r := cs.dropWhile isSepC
      if isPrefixCI "season".data r then p3Marker (r.drop 6) else none
    else none

def p3Scan (acc : Str) : Str → Option (Str × P3Marker)
  | [] => none
  | c :: cs =>
    match sepThenP3 (c :: cs) with
    | some m => some (acc.reverse, m)
    | none => if c = '\n' then none else p3Scan (c :: acc) cs

def p3 : Str → Option (Str × P3Marker)
  | [] => none
  | c :: cs => if c = '\n' then none else p3Scan [c] cs

/-- The tag alternation of pattern 1's remainder cleanup, lowercased. -/
def epTags : List Str :=
  ["720p".data, "1080p".data, "2160p".data, "4k".data, "hdtv".data, "web-dl".data,
   "webrip".data, "bluray".data, "x264".data, "x265".data, "hevc".data, "aac".data,
   "ac3".data]

/-- Embeds `re.sub(r'\.', ' ', title).strip()` applied to the title group. -/
def cleanShowTitle (t : Str) : Str := trimWs (t.map dotSp)

/-- The remainder cleanup: strip one leading separator run, dots to
spaces, truncate at release tags, keep only if non-blank after strip. -/
def cleanEpisodeTitle (rest : Str) : Option Str :=
  let r1 := rest.dropWhile isSepC
  let r2 := r1.map dotSp
  let r3 := truncTags epTags r2
  let r4 := trimWs r3
  if r4 = [] then none else some r4

/-- Embeds `get_episode_info`. -/
def get_episode_info (filename : Str) : EpisodeInfo :=
  let basename := pathStem filename
  match p1 basename with
  | some (title, m) =>
    { season := some m.season
      episode := some m.episode
      episodes := m.episode ::
        ((match m.ep2 with | some e => [e] | none => []) ++
         (match m.ep3 with | some e => [e] | none => []))
      show_title := some (cleanShowTitle title)
      episode_title := cleanEpisodeTitle m.rest
      is_multi_episode := m.ep2.isSome }
  | none =>
    match p2 basename with
    | some (title, m) =>
      { season := some m.season
        episode := some m.episode
        episodes := [m.episode]
        show_title := some (cleanShowTitle title)
        episode_title := none
        is_multi_episode := false }
    | none =>
      match p3 basename with
      | some (title, m) =>
        { season := some m.season
          episode := some m.episode
          episodes := [m.episode]
          show_title := some (cleanShowTitle title)
          episode_title := none
          is_multi_episode := false }
      | none =>
        { season := none
          episode := none
          episodes := []
          show_title := none
          episode_title := none
          is_multi_episode := false }

/-- Replace the representative size of an input folder entry by an
arbitrary function of the entry. -/
def resize (f : FolderInfo → Nat) (fi : FolderInfo) : FolderInfo :=
  ⟨fi.name, fi.path, f fi⟩

/-- The corresponding rewriting on duplicate entries. -/
def resizeE (f : FolderInfo → Nat) (e : DupEntry) : DupEntry :=
  ⟨e.path, e.original_name, e.year, e.quality, f ⟨e.original_name, e.path, e.file_size⟩⟩

/-!
## Claim C3: idempotence of the title normalizer

Idempotence fails when the normalized title itself begins with another
article: "The The Matrix" normalizes to "the matrix", which re-normalizes
to "matrix".  The amended statement proved below: re-normalizing is the
identity whenever the normalized title does not begin with an article
followed by whitespace.  The proof shows the normalizer's output contains
no year token, no release tag, no dot, underscore, hyphen or slash, and is
fully lowercased with single internal spaces and no boundary whitespace —
so every stage of the second pass is the identity.
-/

/-- Holds when `re.search(r'(19|20)\d{2}', ...)` succeeds somewhere in the string. -/
def hasYear : Str → Bool
  | [] => false
  | c :: cs => yearAt (c :: cs) || hasYear cs

/-- Some release tag of `tags` occurs (case-insensitively) in the string. -/
def hasTag (tags : List Str) : Str → Bool
  | [] => false
  | c :: cs => tagAt tags (c :: cs) || hasTag tags cs

/-- Holds when `re.match(r'^(the|a|an)\s+', ...)` succeeds. -/
def articleMatches (l : Str) : Bool := (articleSplit l).isSome

/-- C2: the quality scorer gives "Movie.2160p.BluRay.x265.Atmos.HDR10+" a
total score of exactly 180 (resolution 100 + source 30 + codec 20 +
audio 15 + HDR 15) with the hdr flag set. -/
theorem quality_score_showcase :
    (get_quality_score "Movie.2160p.BluRay.x265.Atmos.HDR10+".data).score = 180 ∧
    (get_quality_score "Movie.2160p.BluRay.x265.Atmos.HDR10+".data).hdr = true ∧
    tierPts (resolutionTier ("Movie.2160p.BluRay.x265.Atmos.HDR10+".data.map lowerC)) = 100 ∧
    tierPts (sourceTier ("Movie.2160p.BluRay.x265.Atmos.HDR10+".data.map lowerC)) = 30 ∧
    tierPts (codecTier ("Movie.2160p.BluRay.x265.Atmos.HDR10+".data.map lowerC)) = 20 ∧
    tierPts (audioTier ("Movie.2160p.BluRay.x265.Atmos.HDR10+".data.map lowerC)) = 15 ∧
    hdrPts (hdrTier ("Movie.2160p.BluRay.x265.Atmos.HDR10+".data.map lowerC)) = 15 := by
  decide

theorem resolutionTier_pts_mem (fl : Str) :
    tierPts (resolutionTier fl) ∈ [0, 40, 60, 80, 100] := by
  unfold resolutionTier
  split_ifs <;> decide

theorem sourceTier_pts_mem (fl : Str) :
    tierPts (sourceTier fl) ∈ [0, 10, 15, 20, 25, 30] := by
  unfold sourceTier
  split_ifs <;> decide

theorem codecTier_pts_mem (fl : Str) :
    tierPts (codecTier fl) ∈ [0, 5, 15, 20] := by
  unfold codecTier
  split_ifs <;> decide

theorem audioTier_pts_mem (fl : Str) :
    tierPts (audioTier fl) ∈ [0, 3, 5, 8, 10, 12, 15] := by
  unfold audioTier
  split_ifs <;> decide

theorem hdrTier_pts_mem (fl : Str) :
    hdrPts (hdrTier fl) ∈ [0, 10, 12, 15] := by
  unfold hdrTier
  split_ifs <;> decide

/-- C10: for every input string the total quality score is at most 180 and
each of the five categories contributes the points of at most one tier
(the score is the sum of one tier value, possibly 0, per category). -/
theorem quality_score_le_180 (s : Str) :
    (get_quality_score s).score ≤ 180 ∧
    (get_quality_score s).score =
      tierPts (resolutionTier (s.map lowerC)) + tierPts (sourceTier (s.map lowerC)) +
      tierPts (codecTier (s.map lowerC)) + tierPts (audioTier (s.map lowerC)) +
      hdrPts (hdrTier (s.map lowerC)) ∧
    tierPts (resolutionTier (s.map lowerC)) ∈ [0, 40, 60, 80, 100] ∧
    tierPts (sourceTier (s.map lowerC)) ∈ [0, 10, 15, 20, 25, 30] ∧
    tierPts (codecTier (s.map lowerC)) ∈ [0, 5, 15, 20] ∧
    tierPts (audioTier (s.map lowerC)) ∈ [0, 3, 5, 8, 10, 12, 15] ∧
    hdrPts (hdrTier (s.map lowerC)) ∈ [0, 10, 12, 15] := by
  have hr := resolutionTier_pts_mem (s.map lowerC)
  have hs := sourceTier_pts_mem (s.map lowerC)
  have hc := codecTier_pts_mem (s.map lowerC)
  have ha := audioTier_pts_mem (s.map lowerC)
  have hh := hdrTier_pts_mem (s.map lowerC)
  refine ⟨?_, rfl, hr, hs, hc, ha, hh⟩
  have hr' : tierPts (resolutionTier (s.map lowerC)) ≤ 100 :=
    (by decide : ∀ x ∈ [0, 40, 60, 80, 100], x ≤ 100) _ hr
  have hs' : tierPts (sourceTier (s.map lowerC)) ≤ 30 :=
    (by decide : ∀ x ∈ [0, 10, 15, 20, 25, 30], x ≤ 30) _ hs
  have hc' : tierPts (codecTier (s.map lowerC)) ≤ 20 :=
    (by decide : ∀ x ∈ [0, 5, 15, 20], x ≤ 20) _ hc
  have ha' : tierPts (audioTier (s.map lowerC)) ≤ 15 :=
    (by decide : ∀ x ∈ [0, 3, 5, 8, 10, 12, 15], x ≤ 15) _ ha
  have hh' : hdrPts (hdrTier (s.map lowerC)) ≤ 15 :=
    (by decide : ∀ x ∈ [0, 10, 12, 15], x ≤ 15) _ hh
  show tierPts _ + tierPts _ + tierPts _ + tierPts _ + hdrPts _ ≤ 180
  omega

/-- C4 counterexample: the input "1999" is non-empty yet normalizes to the
empty title, refuting "normalizedTitle is empty only when the input is
empty". -/
theorem normalized_title_empty_cex :
    "1999".data ≠ ([] : Str) ∧
    (get_normalized_title "1999".data).normalized_title = [] := by
  decide

/-- C4 (amended): the empty input normalizes to the empty title, but a
non-empty input (one starting with a year or release tag) may also yield an
empty normalizedTitle, so emptiness of the output does not characterize
emptiness of the input. -/
theorem normalized_title_of_empty :
    (get_normalized_title ([] : Str)).normalized_title = [] := by
  decide

/-- C9: cleaning "Show.Name.S01.1080p.WEB-DL" with the ordered tag list
["1080p", "WEB-DL"] truncates at the first matching tag in list order and
yields "Show Name S01" after dot-to-space normalization, preserving the
non-tag token "S01". -/
theorem clean_folder_showcase :
    clean_folder_name "Show.Name.S01.1080p.WEB-DL".data
        ["1080p".data, "WEB-DL".data] = "Show Name S01".data := by
  decide

/-- C1: the two Inception entries share the duplicate key
"inception|2010" (normalized title "inception", year "2010"), form a single
duplicate group in input order, and are ranked [B, A] since B scores
80+25+15=120 and A scores 60+30+15=105. -/
theorem duplicate_grouping_showcase :
    entryKey "Inception.2010.720p.BluRay.x264".data = "inception|2010".data ∧
    entryKey "Inception.2010.1080p.WEB-DL.x264".data = "inception|2010".data ∧
    (get_normalized_title "Inception.2010.720p.BluRay.x264".data).normalized_title =
      "inception".data ∧
    (get_normalized_title "Inception.2010.720p.BluRay.x264".data).year =
      some "2010".data ∧
    (get_quality_score "Inception.2010.720p.BluRay.x264".data).score = 105 ∧
    (get_quality_score "Inception.2010.1080p.WEB-DL.x264".data).score = 120 ∧
    (find_duplicate_movies
        [⟨"Inception.2010.720p.BluRay.x264".data, "A".data, 0⟩,
         ⟨"Inception.2010.1080p.WEB-DL.x264".data, "B".data, 0⟩]).map
        (fun g => g.map (fun e => e.original_name)) =
      [["Inception.2010.720p.BluRay.x264".data, "Inception.2010.1080p.WEB-DL.x264".data]] ∧
    ((find_duplicate_movies
        [⟨"Inception.2010.720p.BluRay.x264".data, "A".data, 0⟩,
         ⟨"Inception.2010.1080p.WEB-DL.x264".data, "B".data, 0⟩]).map
        (fun g => (rank_group g).map (fun e => e.original_name))) =
      [["Inception.2010.1080p.WEB-DL.x264".data, "Inception.2010.720p.BluRay.x264".data]] := by
  decide

/-- C8: each core inference function is total by construction in this
embedding, and on the empty string each returns its documented
default/empty result: EpisodeInfo with all optional fields unset, TitleKey
with empty title and no year, QualityScore with all categories Unknown and
score 0. -/
theorem core_functions_empty_input :
    get_episode_info [] =
      ⟨none, none, [], none, none, false⟩ ∧
    get_normalized_title [] = ⟨[], none⟩ ∧
    get_quality_score [] =
      ⟨0, "Unknown".data, "Unknown".data, "Unknown".data, "Unknown".data, false, []⟩ := by
  decide

/-- C6: for every input, the episodes list is non-empty exactly when the
season field is set: each pattern branch sets both, the fallback neither. -/
theorem episodes_nonempty_iff_season (s : Str) :
    (get_episode_info s).episodes ≠ [] ↔ (get_episode_info s).season.isSome := by
  cases hp1 : p1 (pathStem s) with
  | some tm =>
    obtain ⟨t, m⟩ := tm
    simp [get_episode_info, hp1]
  | none =>
    cases hp2 : p2 (pathStem s) with
    | some tm =>
      obtain ⟨t, m⟩ := tm
      simp [get_episode_info, hp1, hp2]
    | none =>
      cases hp3 : p3 (pathStem s) with
      | some tm =>
        obtain ⟨t, m⟩ := tm
        simp [get_episode_info, hp1, hp2, hp3]
      | none => simp [get_episode_info, hp1, hp2, hp3]

/-!
## Claim C5: filenames matching `*.S01E01.*`

The universally quantified claim fails (an earlier marker in the name
wins, and pathological shapes break the stem), so it is refuted on
"X.S02E05.S01E01.y" and proved in the amended form where the glob's
marker is the first marker of the stem: the part before ".S01E01." is
non-empty and free of separator characters and slashes, and the part
after contains no slash.
-/

theorem splitSlash_of_no_slash (l : Str) (h : '/' ∉ l) : splitSlash l = [l] := by
  induction l with
  | nil => rfl
  | cons c cs ih =>
    simp only [List.mem_cons, not_or] at h
    have hc : ¬ c = '/' := fun hh => h.1 hh.symm
    simp [splitSlash, hc, ih h.2]

theorem pathName_of_simple (l : Str) (h : '/' ∉ l) (h1 : l ≠ []) (h2 : l ≠ ['.']) :
    pathName l = l := by
  unfold pathName
  rw [splitSlash_of_no_slash l h]
  have e1 : l.isEmpty = false := by
    cases l with
    | nil => exact absurd rfl h1
    | cons c cs => rfl
  have e2 : (l == ['.']) = false := by
    cases hbe : l == ['.'] with
    | false => rfl
    | true => exact absurd (by exact eq_of_beq hbe) h2
  simp [List.filter, e1, e2]

theorem lastDotSplit_of_no_dot (l : Str) (h : '.' ∉ l) : lastDotSplit l = none := by
  induction l with
  | nil => rfl
  | cons c cs ih =>
    simp only [List.mem_cons, not_or] at h
    have hc : ¬ c = '.' := fun hh => h.1 hh.symm
    simp [lastDotSplit, ih h.2, hc]

theorem lastDotSplit_append (X B : Str) (hB : '.' ∉ B) :
    lastDotSplit (X ++ '.' :: B) = some (X, B) := by
  induction X with
  | nil => simp [lastDotSplit, lastDotSplit_of_no_dot B hB]
  | cons c cs ih => simp [lastDotSplit, ih]

theorem exists_last_dot (B : Str) (h : '.' ∈ B) :
    ∃ B1 B2, B = B1 ++ '.' :: B2 ∧ '.' ∉ B2 := by
  induction B with
  | nil => cases h
  | cons c cs ih =>
    by_cases hcs : '.' ∈ cs
    · obtain ⟨B1, B2, e, hn⟩ := ih hcs
      exact ⟨c :: B1, B2, by rw [e]; rfl, hn⟩
    · have hc : c = '.' := by
        rcases List.mem_cons.mp h with h' | h'
        · exact h'.symm
        · exact absurd h' hcs
      exact ⟨[], cs, by simp [hc], hcs⟩

theorem pathStem_decomp (A B : Str) (hA : A ≠ []) (hAs : '/' ∉ A) (hBs : '/' ∉ B) :
    ∃ R, pathStem (A ++ ".S01E01.".data ++ B) = A ++ ".S01E01".data ++ R ∧
      (R = [] ∨ ∃ Rt, R = '.' :: Rt) ∧ (∀ x ∈ R, x = '.' ∨ x ∈ B) := by
  have hns : '/' ∉ A ++ ".S01E01.".data ++ B := by
    intro hm
    rcases List.mem_append.mp hm with hm' | h
    · rcases List.mem_append.mp hm' with h | h
      · exact hAs h
      · revert h; decide
    · exact hBs h
  have hne : A ++ ".S01E01.".data ++ B ≠ [] := by
    cases A with
    | nil => exact absurd rfl hA
    | cons a as => simp
  have hnd : A ++ ".S01E01.".data ++ B ≠ ['.'] := by
    intro he
    have := congrArg List.length he
    simp [List.length_append] at this
    omega
  have hname := pathName_of_simple _ hns hne hnd
  unfold pathStem
  rw [hname]
  by_cases hdB : '.' ∈ B
  · obtain ⟨B1, B2, he, hn2⟩ := exists_last_dot B hdB
    have hsplit : lastDotSplit (A ++ ".S01E01.".data ++ B) =
        some (A ++ ".S01E01.".data ++ B1, B2) := by
      rw [he, show A ++ ".S01E01.".data ++ (B1 ++ '.' :: B2) =
        (A ++ ".S01E01.".data ++ B1) ++ '.' :: B2 by simp]
      exact lastDotSplit_append _ _ hn2
    simp only [dropExt, hsplit]
    by_cases h2 : B2 = []
    · refine ⟨'.' :: B, ?_, Or.inr ⟨B, rfl⟩, ?_⟩
      · have hif : ¬(A ++ ".S01E01.".data ++ B1 ≠ [] ∧ B2 ≠ []) := by
          intro hcon
          exact hcon.2 h2
        rw [if_neg hif]
        simp [show (".S01E01.".data : Str) = ".S01E01".data ++ ['.'] from rfl]
      · intro x hx
        rcases List.mem_cons.mp hx with h | h
        · exact Or.inl h
        · exact Or.inr h
    · refine ⟨'.' :: B1, ?_, Or.inr ⟨B1, rfl⟩, ?_⟩
      · have hif : A ++ ".S01E01.".data ++ B1 ≠ [] ∧ B2 ≠ [] := by
          constructor
          · cases A with
            | nil => exact absurd rfl hA
            | cons a as => simp
          · exact h2
        rw [if_pos hif]
        simp [show (".S01E01.".data : Str) = ".S01E01".data ++ ['.'] from rfl]
      · intro x hx
        rcases List.mem_cons.mp hx with h | h
        · exact Or.inl h
        · exact Or.inr (by rw [he]; exact List.mem_append_left _ h)
  · cases B with
    | nil =>
      refine ⟨['.'], ?_, Or.inr ⟨[], rfl⟩, fun x hx => Or.inl (List.mem_singleton.mp hx)⟩
      have hsplit : lastDotSplit (A ++ ".S01E01.".data ++ []) =
          some (A ++ ".S01E01".data, []) := by
        rw [show A ++ ".S01E01.".data ++ ([] : Str) =
          (A ++ ".S01E01".data) ++ '.' :: [] by simp [show (".S01E01.".data : Str) =
            ".S01E01".data ++ ['.'] from rfl]]
        exact lastDotSplit_append _ _ (by decide)
      simp only [dropExt, hsplit]
      have hif : ¬(A ++ ".S01E01".data ≠ [] ∧ ([] : Str) ≠ []) := by
        intro hcon
        exact hcon.2 rfl
      rw [if_neg hif]
      simp [show (".S01E01.".data : Str) = ".S01E01".data ++ ['.'] from rfl]
    | cons b bs =>
      refine ⟨[], ?_, Or.inl rfl, fun x hx => nomatch hx⟩
      have hsplit : lastDotSplit (A ++ ".S01E01.".data ++ (b :: bs)) =
          some (A ++ ".S01E01".data, b :: bs) := by
        rw [show A ++ ".S01E01.".data ++ (b :: bs) =
          (A ++ ".S01E01".data) ++ '.' :: (b :: bs) by
            simp [show (".S01E01.".data : Str) = ".S01E01".data ++ ['.'] from rfl]]
        exact lastDotSplit_append _ _ hdB
      simp only [dropExt, hsplit]
      have hif : A ++ ".S01E01".data ≠ [] ∧ (b :: bs) ≠ [] := by
        constructor
        · cases A with
          | nil => exact absurd rfl hA
          | cons a as => simp
        · simp
      rw [if_pos hif]
      simp

theorem sepThenP1_none_of_not_sep (c : Char) (cs : Str) (h : isSepC c = false) :
    sepThenP1 (c :: cs) = none := by
  simp [sepThenP1, h]

theorem noInteriorNl_cons (c : Char) (cs : Str) (hc : c ≠ '\n') :
    noInteriorNl (c :: cs) = noInteriorNl cs := by
  cases cs with
  | nil => rfl
  | cons d ds => simp [noInteriorNl, hc]

theorem noInteriorNl_of_not_mem (l : Str) (h : '\n' ∉ l) : noInteriorNl l = true := by
  induction l with
  | nil => rfl
  | cons c cs ih =>
    rw [noInteriorNl_cons c cs (fun he => h (List.mem_cons.mpr (Or.inl he.symm)))]
    exact ih (fun hm => h (List.mem_cons_of_mem c hm))

theorem getLast?_mem_char (l : Str) (c : Char) (h : l.getLast? = some c) : c ∈ l := by
  cases l with
  | nil => exact Option.noConfusion h
  | cons a as =>
    have hne : (a :: as) ≠ ([] : Str) := by simp
    rw [List.getLast?_eq_getLast (a :: as) hne] at h
    have hc : (a :: as).getLast hne = c := Option.some_injective _ h
    rw [← hc]
    exact List.getLast_mem hne

theorem stripTrailNl_of_not_mem (l : Str) (h : '\n' ∉ l) : stripTrailNl l = l := by
  unfold stripTrailNl
  rw [if_neg]
  intro he
  exact h (getLast?_mem_char l '\n' he)

theorem ne_nl_of_not_sep (c : Char) (h : isSepC c = false) : c ≠ '\n' := by
  intro he
  rw [he] at h
  exact absurd h (by decide)

theorem p1Scan_marker (M : Str) (hM : ∀ c ∈ M, isSepC c = false) (acc R : Str)
    (hR : R = [] ∨ ∃ Rt, R = '.' :: Rt) (hRn : '\n' ∉ R) :
    p1Scan acc (M ++ '.' :: 'S' :: '0' :: '1' :: 'E' :: '0' :: '1' :: R) =
      some ((M.reverse ++ acc).reverse, ⟨1, 1, none, none, R⟩) := by
  induction M generalizing acc with
  | nil =>
    rcases hR with rfl | ⟨Rt, rfl⟩
    · rfl
    · have hnR : noInteriorNl ('.' :: Rt) = true := noInteriorNl_of_not_mem _ hRn
      have hn6 : noInteriorNl ('S' :: '0' :: '1' :: 'E' :: '0' :: '1' :: '.' :: Rt) = true := by
        rw [noInteriorNl_cons _ _ (by decide), noInteriorNl_cons _ _ (by decide),
          noInteriorNl_cons _ _ (by decide), noInteriorNl_cons _ _ (by decide),
          noInteriorNl_cons _ _ (by decide), noInteriorNl_cons _ _ (by decide)]
        exact hnR
      have hsep : sepThenP1 ('.' :: 'S' :: '0' :: '1' :: 'E' :: '0' :: '1' :: '.' :: Rt) =
          some ⟨1, 1, none, none, stripTrailNl ('.' :: Rt)⟩ := by
        have e : sepThenP1 ('.' :: 'S' :: '0' :: '1' :: 'E' :: '0' :: '1' :: '.' :: Rt) =
            if noInteriorNl ('S' :: '0' :: '1' :: 'E' :: '0' :: '1' :: '.' :: Rt) = true
            then p1Marker ('S' :: '0' :: '1' :: 'E' :: '0' :: '1' :: '.' :: Rt) else none := rfl
        rw [e, hn6, if_pos rfl]
        rfl
      simp only [List.nil_append, p1Scan, hsep, stripTrailNl_of_not_mem _ hRn]
      rfl
  | cons c M' ih =>
    have h1 : isSepC c = false := hM c (List.mem_cons_self c M')
    have h2 : ∀ x ∈ M', isSepC x = false := fun x hx => hM x (List.mem_cons_of_mem c hx)
    rw [List.cons_append]
    have e1 := sepThenP1_none_of_not_sep c
      (M' ++ '.' :: 'S' :: '0' :: '1' :: 'E' :: '0' :: '1' :: R) h1
    simp only [p1Scan, e1]
    rw [if_neg (ne_nl_of_not_sep c h1)]
    rw [ih h2 (c :: acc)]
    congr 2
    simp

/-- When pattern 1 matches the stem, `get_episode_info` returns the
pattern-1 record. -/
theorem get_episode_info_of_p1 (fn t : Str) (m : P1Marker)
    (h : p1 (pathStem fn) = some (t, m)) :
    get_episode_info fn =
      { season := some m.season
        episode := some m.episode
        episodes := m.episode ::
          ((match m.ep2 with | some e => [e] | none => []) ++
           (match m.ep3 with | some e => [e] | none => []))
        show_title := some (cleanShowTitle t)
        episode_title := cleanEpisodeTitle m.rest
        is_multi_episode := m.ep2.isSome } := by
  simp [get_episode_info, h]

/-- C5 counterexample: "X.S02E05.S01E01.y" matches the glob `*.S01E01.*`
(shown by the explicit decomposition), yet the parser locates the earlier
marker S02E05: season 2, episodes [5], refuting the claim. -/
theorem episode_glob_cex :
    ("X.S02E05.S01E01.y".data : Str) =
      "X.S02E05".data ++ ".S01E01.".data ++ "y".data ∧
    (get_episode_info "X.S02E05.S01E01.y".data).season = some 2 ∧
    (get_episode_info "X.S02E05.S01E01.y".data).episodes = [5] := by
  decide

/-- C5 (amended): for filenames `A ++ ".S01E01." ++ B` in which the glob's
marker is the first season-episode marker of the stem — `A` non-empty with
no separator-class characters (dot, underscore, hyphen, whitespace) and no
slash, and `B` without slash or newline (a newline after the marker defeats
the pattern's `(.*)$`, whose `.` cannot cross it) — the parser returns
season 1, episodes [1] and no multi-episode flag. -/
theorem episode_s01e01_located (A B : Str) (hA : A ≠ [])
    (hAc : ∀ c ∈ A, isSepC c = false ∧ c ≠ '/') (hB : '/' ∉ B) (hBn : '\n' ∉ B) :
    (get_episode_info (A ++ ".S01E01.".data ++ B)).season = some 1 ∧
    (get_episode_info (A ++ ".S01E01.".data ++ B)).episodes = [1] ∧
    (get_episode_info (A ++ ".S01E01.".data ++ B)).is_multi_episode = false := by
  have hAs : '/' ∉ A := fun hm => (hAc _ hm).2 rfl
  obtain ⟨R, hstem, hR, hRsub⟩ := pathStem_decomp A B hA hAs hB
  have hRn : '\n' ∉ R := by
    intro hm
    rcases hRsub _ hm with h | h
    · exact absurd h (by decide)
    · exact hBn h
  cases A with
  | nil => exact absurd rfl hA
  | cons a A' =>
    have hstem' : pathStem ((a :: A') ++ ".S01E01.".data ++ B) =
        a :: (A' ++ '.' :: 'S' :: '0' :: '1' :: 'E' :: '0' :: '1' :: R) := by
      rw [hstem]
      simp [show (".S01E01".data : Str) = ['.', 'S', '0', '1', 'E', '0', '1'] from rfl]
    have hp1 : p1 (pathStem ((a :: A') ++ ".S01E01.".data ++ B)) =
        some ((A'.reverse ++ [a]).reverse, ⟨1, 1, none, none, R⟩) := by
      rw [hstem']
      simp only [p1]
      rw [if_neg (ne_nl_of_not_sep a (hAc a (List.mem_cons_self a A')).1)]
      exact p1Scan_marker A' (fun c hc => (hAc c (List.mem_cons_of_mem a hc)).1) [a] R hR hRn
    rw [get_episode_info_of_p1 _ _ _ hp1]
    exact ⟨rfl, rfl, rfl⟩

/-- Witness: the amended C5 theorem applied to "Show.S01E01.mkv". -/
theorem episode_s01e01_located_witness :
    ("Show".data ≠ ([] : Str)) ∧
    (∀ c ∈ "Show".data, isSepC c = false ∧ c ≠ '/') ∧
    ('/' ∉ "mkv".data) ∧
    ('\n' ∉ "mkv".data) ∧
    (get_episode_info ("Show".data ++ ".S01E01.".data ++ "mkv".data)).season = some 1 ∧
    (get_episode_info ("Show".data ++ ".S01E01.".data ++ "mkv".data)).episodes = [1] ∧
    (get_episode_info ("Show".data ++ ".S01E01.".data ++ "mkv".data)).is_multi_episode =
      false := by
  have h := episode_s01e01_located "Show".data "mkv".data (by decide) (by decide) (by decide)
    (by decide)
  exact ⟨by decide, by decide, by decide, by decide, h.1, h.2.1, h.2.2⟩

/-!
## Claim C7: ranking is by score only, stable, and size-independent

`show_duplicate_report` sorts with `sorted(..., key=score, reverse=True)`,
which is stable: ties keep insertion order.  `representativeSize`
(`file_size`) is carried along but never compared, so replacing every
entry's size by an arbitrary function of the entry changes neither the
grouping structure nor the ranking order.
-/

theorem insertDesc_mem (x b : DupEntry) (l : List DupEntry) :
    b ∈ insertDesc x l ↔ b = x ∨ b ∈ l := by
  induction l with
  | nil => simp [insertDesc]
  | cons y ys ih =>
    by_cases hc : x.quality.score < y.quality.score
    · simp only [insertDesc, if_pos hc, List.mem_cons, ih]
      tauto
    · simp only [insertDesc, if_neg hc, List.mem_cons]

theorem insertDesc_sorted (x : DupEntry) (l : List DupEntry)
    (h : List.Pairwise (fun a b => b.quality.score ≤ a.quality.score) l) :
    List.Pairwise (fun a b => b.quality.score ≤ a.quality.score) (insertDesc x l) := by
  induction l with
  | nil => simp [insertDesc]
  | cons y ys ih =>
    rw [List.pairwise_cons] at h
    obtain ⟨hy, hys⟩ := h
    by_cases hc : x.quality.score < y.quality.score
    · simp only [insertDesc, if_pos hc]
      rw [List.pairwise_cons]
      constructor
      · intro b hb
        rcases (insertDesc_mem x b ys).mp hb with rfl | hb'
        · omega
        · exact hy b hb'
      · exact ih hys
    · simp only [insertDesc, if_neg hc]
      rw [List.pairwise_cons]
      constructor
      · intro b hb
        rcases List.mem_cons.mp hb with rfl | hb'
        · omega
        · exact le_trans (hy b hb') (Nat.le_of_not_lt hc)
      · rw [List.pairwise_cons]
        exact ⟨hy, hys⟩

theorem rank_group_sorted (l : List DupEntry) :
    List.Pairwise (fun a b => b.quality.score ≤ a.quality.score) (rank_group l) := by
  induction l with
  | nil => simp [rank_group]
  | cons x xs ih => exact insertDesc_sorted x (rank_group xs) ih

theorem insertDesc_filter_ne (x : DupEntry) (l : List DupEntry) (p : DupEntry → Bool)
    (hx : p x = false) :
    (insertDesc x l).filter p = l.filter p := by
  induction l with
  | nil => simp [insertDesc, List.filter, hx]
  | cons y ys ih =>
    by_cases hc : x.quality.score < y.quality.score
    · simp only [insertDesc, if_pos hc, List.filter_cons, ih]
    · simp only [insertDesc, if_neg hc, List.filter_cons, hx]
      simp

theorem insertDesc_filter_eq (x : DupEntry) (l : List DupEntry) (k : Nat)
    (hx : x.quality.score = k)
    (hsort : List.Pairwise (fun a b => b.quality.score ≤ a.quality.score) l) :
    (insertDesc x l).filter (fun e => e.quality.score == k) =
      x :: l.filter (fun e => e.quality.score == k) := by
  induction l with
  | nil => simp [insertDesc, List.filter, hx]
  | cons y ys ih =>
    rw [List.pairwise_cons] at hsort
    obtain ⟨hy, hys⟩ := hsort
    by_cases hc : x.quality.score < y.quality.score
    · have hpy : (y.quality.score == k) = false := by
        simp only [beq_eq_false_iff_ne, ne_eq]
        omega
      simp only [insertDesc, if_pos hc, List.filter_cons, hpy]
      simp only [Bool.false_eq_true, if_false]
      rw [ih hys]
    · have he : insertDesc x (y :: ys) = x :: y :: ys := by
        unfold insertDesc
        rw [if_neg hc]
      rw [he, List.filter_cons]
      simp [hx]

theorem rank_group_filter (l : List DupEntry) (k : Nat) :
    (rank_group l).filter (fun e => e.quality.score == k) =
      l.filter (fun e => e.quality.score == k) := by
  induction l with
  | nil => rfl
  | cons x xs ih =>
    by_cases hx : x.quality.score = k
    · simp only [rank_group]
      rw [insertDesc_filter_eq x (rank_group xs) k hx (rank_group_sorted xs), ih]
      simp [List.filter_cons, hx]
    · simp only [rank_group]
      rw [insertDesc_filter_ne x _ _ (by simp [hx]), ih]
      simp [List.filter_cons, hx]

theorem mkEntry_resize (f : FolderInfo → Nat) (fi : FolderInfo) :
    mkEntry (resize f fi) = resizeE f (mkEntry fi) := by
  cases fi
  rfl

theorem addEntry_resize (f : FolderInfo → Nat) (m : List (Str × List DupEntry))
    (k : Str) (e : DupEntry) :
    addEntry (m.map (fun kv => (kv.1, kv.2.map (resizeE f)))) k (resizeE f e) =
      (addEntry m k e).map (fun kv => (kv.1, kv.2.map (resizeE f))) := by
  induction m with
  | nil => rfl
  | cons kv rest ih =>
    obtain ⟨k', es⟩ := kv
    by_cases hk : k' = k
    · simp [addEntry, hk]
    · simp [addEntry, hk, ih]

theorem buildLookup_resize_aux (f : FolderInfo → Nat) (fs : List FolderInfo)
    (m : List (Str × List DupEntry)) :
    List.foldl (fun m fi => addEntry m (entryKey fi.name) (mkEntry fi))
        (m.map (fun kv => (kv.1, kv.2.map (resizeE f)))) (fs.map (resize f)) =
      (List.foldl (fun m fi => addEntry m (entryKey fi.name) (mkEntry fi)) m fs).map
        (fun kv => (kv.1, kv.2.map (resizeE f))) := by
  induction fs generalizing m with
  | nil => rfl
  | cons fi rest ih =>
    simp only [List.map_cons, List.foldl_cons]
    rw [show entryKey (resize f fi).name = entryKey fi.name from rfl]
    rw [mkEntry_resize, addEntry_resize]
    exact ih _

theorem buildLookup_resize (f : FolderInfo → Nat) (fs : List FolderInfo) :
    buildLookup (fs.map (resize f)) =
      (buildLookup fs).map (fun kv => (kv.1, kv.2.map (resizeE f))) := by
  unfold buildLookup
  exact buildLookup_resize_aux f fs []

theorem filter_big_map (r : FolderInfo → Nat) (ls : List (List DupEntry)) :
    (ls.map (List.map (resizeE r))).filter (fun es => decide (1 < es.length)) =
      (ls.filter (fun es => decide (1 < es.length))).map (List.map (resizeE r)) := by
  induction ls with
  | nil => rfl
  | cons es rest ih =>
    by_cases h : 1 < es.length
    · simp [List.filter_cons, h, ih]
    · simp [List.filter_cons, h, ih]

theorem find_duplicate_movies_resize (f : FolderInfo → Nat) (fs : List FolderInfo) :
    find_duplicate_movies (fs.map (resize f)) =
      (find_duplicate_movies fs).map (List.map (resizeE f)) := by
  unfold find_duplicate_movies
  rw [buildLookup_resize]
  rw [List.map_map, show Prod.snd ∘ (fun kv : Str × List DupEntry =>
    (kv.1, kv.2.map (resizeE f))) = (List.map (resizeE f)) ∘ Prod.snd from rfl]
  rw [← List.map_map, filter_big_map]

theorem insertDesc_resizeE (f : FolderInfo → Nat) (x : DupEntry) (l : List DupEntry) :
    insertDesc (resizeE f x) (l.map (resizeE f)) = (insertDesc x l).map (resizeE f) := by
  induction l with
  | nil => rfl
  | cons y ys ih =>
    have hsc : (resizeE f x).quality.score < (resizeE f y).quality.score ↔
        x.quality.score < y.quality.score := Iff.rfl
    by_cases hc : x.quality.score < y.quality.score
    · simp only [List.map_cons, insertDesc, if_pos (hsc.mpr hc), if_pos hc, ih]
    · simp only [List.map_cons, insertDesc, if_neg (fun hh => hc (hsc.mp hh)), if_neg hc]

theorem rank_group_resizeE (f : FolderInfo → Nat) (l : List DupEntry) :
    rank_group (l.map (resizeE f)) = (rank_group l).map (resizeE f) := by
  induction l with
  | nil => rfl
  | cons x xs ih =>
    simp only [List.map_cons, rank_group, ih, insertDesc_resizeE]

/-- C7: within every duplicate group the ranking is a stable descending
sort on the quality score alone: the ranked list is pairwise descending in
score, entries of any equal score keep their original relative order
(filter characterization), and replacing every representative size by an
arbitrary function of the entry (including size 0) changes neither the
grouped names nor the ranked names. -/
theorem ranking_by_score_only (l : List DupEntry) (k : Nat) (fs : List FolderInfo)
    (f : FolderInfo → Nat) :
    List.Pairwise (fun a b => b.quality.score ≤ a.quality.score) (rank_group l) ∧
    (rank_group l).filter (fun e => e.quality.score == k) =
      l.filter (fun e => e.quality.score == k) ∧
    (find_duplicate_movies (fs.map (resize f))).map
        (fun g => g.map (fun e => e.original_name)) =
      (find_duplicate_movies fs).map (fun g => g.map (fun e => e.original_name)) ∧
    (find_duplicate_movies (fs.map (resize f))).map
        (fun g => (rank_group g).map (fun e => e.original_name)) =
      (find_duplicate_movies fs).map
        (fun g => (rank_group g).map (fun e => e.original_name)) := by
  refine ⟨rank_group_sorted l, rank_group_filter l k, ?_, ?_⟩
  · rw [find_duplicate_movies_resize, List.map_map]
    congr 1
    funext g
    simp [List.map_map]
    exact fun a _ => rfl
  · rw [find_duplicate_movies_resize, List.map_map]
    congr 1
    funext g
    simp only [Function.comp_apply, rank_group_resizeE, List.map_map]
    simp
    exact fun a _ => rfl

theorem char_eq_of_toNat_eq {a b : Char} (h : a.toNat = b.toNat) : a = b :=
  Char.ext (UInt32.ext h)

theorem char_toNat_ofNat (n : Nat) (h : n < 55296) : (Char.ofNat n).toNat = n := by
  have hv : n.isValidChar := Or.inl h
  simp only [Char.ofNat, hv, dif_pos, Char.ofNatAux, Char.toNat]
  rfl

theorem upper_toNat {c : Char} (h : ('A' ≤ c && c ≤ 'Z') = true) :
    65 ≤ c.toNat ∧ c.toNat ≤ 90 := by
  rw [Bool.and_eq_true, decide_eq_true_iff, decide_eq_true_iff] at h
  obtain ⟨h1, h2⟩ := h
  rw [Char.le_def] at h1 h2
  exact ⟨h1, h2⟩

theorem lowerC_of_not_upper {c : Char} (h : ('A' ≤ c && c ≤ 'Z') = false) :
    lowerC c = c := by
  simp [lowerC, h]

theorem lowerC_keeps_range (c : Char) :
    lowerC c = c ∨
      (97 ≤ (lowerC c).toNat ∧ (lowerC c).toNat ≤ 122 ∧
       65 ≤ c.toNat ∧ c.toNat ≤ 90) := by
  cases h : ('A' ≤ c && c ≤ 'Z') with
  | false => exact Or.inl (lowerC_of_not_upper h)
  | true =>
    right
    have h1 := upper_toNat h
    have h2 : (lowerC c).toNat = c.toNat + 32 := by
      unfold lowerC
      rw [if_pos h]
      exact char_toNat_ofNat _ (by omega)
    omega

theorem lowerC_eq_low {c d : Char} (hd : ¬(97 ≤ d.toNat ∧ d.toNat ≤ 122))
    (h : lowerC c = d) : c = d := by
  rcases lowerC_keeps_range c with he | ⟨h1, h2, _, _⟩
  · exact he.symm.trans h
  · rw [h] at h1 h2
    exact absurd ⟨h1, h2⟩ hd

theorem lowerC_lowerC (c : Char) : lowerC (lowerC c) = lowerC c := by
  rcases lowerC_keeps_range c with he | ⟨h1, h2, _, _⟩
  · rw [he]
    exact he
  · apply lowerC_of_not_upper
    cases hh : ('A' ≤ lowerC c && lowerC c ≤ 'Z') with
    | false => rfl
    | true =>
      have := upper_toNat hh
      omega

theorem pyIsSpace_cases {c : Char} (h : pyIsSpace c = true) :
    c = ' ' ∨ c = '\t' ∨ c = '\n' ∨ c = '\r' ∨ c = '\x0b' ∨ c = '\x0c' := by
  have := h
  simp [pyIsSpace] at this
  tauto

theorem pyIsSpace_toNat {c : Char} (h : pyIsSpace c = true) : c.toNat ≤ 32 := by
  rcases pyIsSpace_cases h with rfl | rfl | rfl | rfl | rfl | rfl <;> decide

theorem pyIsSpace_of_toNat_big {c : Char} (h : 33 ≤ c.toNat) : pyIsSpace c = false := by
  cases hh : pyIsSpace c with
  | false => rfl
  | true =>
    have := pyIsSpace_toNat hh
    omega

theorem pyIsSpace_lowerC (c : Char) : pyIsSpace (lowerC c) = pyIsSpace c := by
  rcases lowerC_keeps_range c with he | ⟨h1, _, h3, _⟩
  · rw [he]
  · rw [pyIsSpace_of_toNat_big (by omega), pyIsSpace_of_toNat_big (by omega)]

theorem isDigitC_toNat {c : Char} (h : isDigitC c = true) :
    48 ≤ c.toNat ∧ c.toNat ≤ 57 := by
  rw [isDigitC, Bool.and_eq_true, decide_eq_true_iff, decide_eq_true_iff] at h
  obtain ⟨h1, h2⟩ := h
  rw [Char.le_def] at h1 h2
  exact ⟨h1, h2⟩

theorem isDigitC_lowerC (c : Char) : isDigitC (lowerC c) = isDigitC c := by
  rcases lowerC_keeps_range c with he | ⟨h1, h2, h3, h4⟩
  · rw [he]
  · have e1 : isDigitC (lowerC c) = false := by
      cases hh : isDigitC (lowerC c) with
      | false => rfl
      | true =>
        have := isDigitC_toNat hh
        omega
    have e2 : isDigitC c = false := by
      cases hh : isDigitC c with
      | false => rfl
      | true =>
        have := isDigitC_toNat hh
        omega
    rw [e1, e2]

theorem lowerC_of_space {c : Char} (h : pyIsSpace c = true) : lowerC c = c := by
  rcases pyIsSpace_cases h with rfl | rfl | rfl | rfl | rfl | rfl <;> decide

theorem yearAt_of_pre {p l : Str} (hp : p <+: l) (h : yearAt p = true) :
    yearAt l = true := by
  match p, hp, h with
  | [], _, h => simp [yearAt] at h
  | [a], _, h => simp [yearAt] at h
  | [a, b], _, h => simp [yearAt] at h
  | [a, b, c], _, h => simp [yearAt] at h
  | a :: b :: c :: d :: p', hp, h =>
    obtain ⟨t, rfl⟩ := hp
    exact h

theorem isPrefixCI_of_pre {t p l : Str} (hp : p <+: l) (h : isPrefixCI t p = true) :
    isPrefixCI t l = true := by
  induction t generalizing p l with
  | nil => rfl
  | cons x ts ih =>
    rcases p with _ | ⟨c, p'⟩
    · simp [isPrefixCI] at h
    · obtain ⟨u, rfl⟩ := hp
      rw [List.cons_append]
      simp only [isPrefixCI, Bool.and_eq_true] at h ⊢
      exact ⟨h.1, ih ⟨u, rfl⟩ h.2⟩

theorem tagAt_of_pre {tags : List Str} {p l : Str} (hp : p <+: l)
    (h : tagAt tags p = true) : tagAt tags l = true := by
  simp only [tagAt, List.any_eq_true] at h ⊢
  obtain ⟨t, ht, hpre⟩ := h
  exact ⟨t, ht, isPrefixCI_of_pre hp hpre⟩

theorem hasYear_of_pre {p l : Str} (hp : p <+: l) (h : hasYear p = true) :
    hasYear l = true := by
  induction p generalizing l with
  | nil => simp [hasYear] at h
  | cons c p' ih =>
    obtain ⟨u, rfl⟩ := hp
    rw [List.cons_append]
    simp only [hasYear, Bool.or_eq_true] at h ⊢
    rcases h with h | h
    · exact Or.inl (yearAt_of_pre ⟨u, by rw [List.cons_append]⟩ h)
    · exact Or.inr (ih ⟨u, rfl⟩ h)

theorem hasYear_of_suf {p l : Str} (hp : p <:+ l) (h : hasYear p = true) :
    hasYear l = true := by
  induction l with
  | nil =>
    rw [List.suffix_nil] at hp
    subst hp
    simp [hasYear] at h
  | cons c cs ih =>
    rcases List.suffix_cons_iff.mp hp with rfl | hp'
    · exact h
    · simp only [hasYear, Bool.or_eq_true]
      exact Or.inr (ih hp')

theorem hasYear_of_inf {p l : Str} (hp : p <:+: l) (h : hasYear p = true) :
    hasYear l = true := by
  obtain ⟨s, t, rfl⟩ := hp
  have h1 : hasYear (p ++ t) = true := hasYear_of_pre (List.prefix_append p t) h
  have h2 : p ++ t <:+ s ++ p ++ t := by
    rw [List.append_assoc]
    exact List.suffix_append s (p ++ t)
  exact hasYear_of_suf h2 h1

theorem hasTag_of_pre {tags : List Str} {p l : Str} (hp : p <+: l)
    (h : hasTag tags p = true) : hasTag tags l = true := by
  induction p generalizing l with
  | nil => simp [hasTag] at h
  | cons c p' ih =>
    obtain ⟨u, rfl⟩ := hp
    rw [List.cons_append]
    simp only [hasTag, Bool.or_eq_true] at h ⊢
    rcases h with h | h
    · exact Or.inl (tagAt_of_pre ⟨u, by rw [List.cons_append]⟩ h)
    · exact Or.inr (ih ⟨u, rfl⟩ h)

theorem hasTag_of_suf {tags : List Str} {p l : Str} (hp : p <:+ l)
    (h : hasTag tags p = true) : hasTag tags l = true := by
  induction l with
  | nil =>
    rw [List.suffix_nil] at hp
    subst hp
    simp [hasTag] at h
  | cons c cs ih =>
    rcases List.suffix_cons_iff.mp hp with rfl | hp'
    · exact h
    · simp only [hasTag, Bool.or_eq_true]
      exact Or.inr (ih hp')

theorem hasTag_of_inf {tags : List Str} {p l : Str} (hp : p <:+: l)
    (h : hasTag tags p = true) : hasTag tags l = true := by
  obtain ⟨s, t, rfl⟩ := hp
  have h1 : hasTag tags (p ++ t) = true := hasTag_of_pre (List.prefix_append p t) h
  have h2 : p ++ t <:+ s ++ p ++ t := by
    rw [List.append_assoc]
    exact List.suffix_append s (p ++ t)
  exact hasTag_of_suf h2 h1

theorem truncYear_subset (l : Str) : ∀ x ∈ truncYear l, x ∈ l := by
  induction l with
  | nil => intro x hx; exact absurd hx (List.not_mem_nil x)
  | cons c cs ih =>
    intro x hx
    unfold truncYear at hx
    by_cases hb : (bracketYearAt (c :: cs) && noInteriorNl (c :: cs)) = true
    · rw [if_pos hb] at hx
      by_cases hl : (c :: cs).getLast? = some '\n'
      · rw [if_pos hl] at hx
        rw [List.mem_singleton.mp hx]
        exact getLast?_mem_char _ _ hl
      · rw [if_neg hl] at hx
        exact absurd hx (List.not_mem_nil x)
    · rw [if_neg hb] at hx
      rcases List.mem_cons.mp hx with h | h
      · rw [h]; exact List.mem_cons_self c cs
      · exact List.mem_cons_of_mem c (ih x h)

theorem truncTags_subset (tags : List Str) (l : Str) : ∀ x ∈ truncTags tags l, x ∈ l := by
  induction l with
  | nil => intro x hx; exact absurd hx (List.not_mem_nil x)
  | cons c cs ih =>
    intro x hx
    unfold truncTags at hx
    by_cases hb : wsTagAt tags (c :: cs) = true
    · rw [if_pos hb] at hx
      by_cases hl : (c :: cs).getLast? = some '\n'
      · rw [if_pos hl] at hx
        rw [List.mem_singleton.mp hx]
        exact getLast?_mem_char _ _ hl
      · rw [if_neg hl] at hx
        exact absurd hx (List.not_mem_nil x)
    · rw [if_neg hb] at hx
      rcases List.mem_cons.mp hx with h | h
      · rw [h]; exact List.mem_cons_self c cs
      · exact List.mem_cons_of_mem c (ih x h)

theorem truncYear_eq_self {l : Str} (h : hasYear l = false) : truncYear l = l := by
  induction l with
  | nil => rfl
  | cons c cs ih =>
    simp only [hasYear, Bool.or_eq_false_iff] at h
    have hb : bracketYearAt (c :: cs) = false := by
      rw [bracketYearAt, h.1]
      cases cs with
      | nil => simp [yearAt]
      | cons d ds =>
        have hy2 : yearAt (d :: ds) = false := by
          cases hy' : yearAt (d :: ds) with
          | false => rfl
          | true =>
            have : hasYear (d :: ds) = true := by
              simp only [hasYear, hy', Bool.true_or]
            rw [this] at h
            exact absurd h.2 (by simp)
        simp [hy2]
    unfold truncYear
    simp only [hb, Bool.false_and, Bool.false_eq_true, if_false]
    rw [ih h.2]

theorem wsTagAt_false {tags : List Str} {l : Str} (h : hasTag tags l = false) :
    wsTagAt tags l = false := by
  induction l with
  | nil => rfl
  | cons c cs ih =>
    simp only [hasTag, Bool.or_eq_false_iff] at h
    unfold wsTagAt
    rw [h.1, ih h.2]
    simp

theorem truncTags_eq_self {tags : List Str} {l : Str} (h : hasTag tags l = false) :
    truncTags tags l = l := by
  induction l with
  | nil => rfl
  | cons c cs ih =>
    have hw : wsTagAt tags (c :: cs) = false := wsTagAt_false h
    simp only [hasTag, Bool.or_eq_false_iff] at h
    unfold truncTags
    simp only [hw, Bool.false_eq_true, if_false]
    rw [ih h.2]

theorem dotSp_eq {c d : Char} (hd : d ≠ ' ') (h : dotSp c = d) : c = d := by
  by_cases hc : c = '.'
  · subst hc
    simp [dotSp] at h
    exact absurd h.symm hd
  · simpa [dotSp, hc] using h

theorem dashSp_eq {c d : Char} (hd : d ≠ ' ') (h : dashSp c = d) : c = d := by
  by_cases hc : c = '_' ∨ c = '-'
  · rcases hc with rfl | rfl <;> simp [dashSp] at h <;> exact absurd h.symm hd
  · push_neg at hc
    simpa [dashSp, hc.1, hc.2] using h

theorem isDigitC_dotSp {c : Char} (h : isDigitC (dotSp c) = true) : isDigitC c = true := by
  by_cases hc : c = '.'
  · subst hc
    simp [dotSp] at h
    exact absurd h (by decide)
  · simpa [dotSp, hc] using h

theorem isDigitC_dashSp {c : Char} (h : isDigitC (dashSp c) = true) :
    isDigitC c = true := by
  by_cases hc : c = '_' ∨ c = '-'
  · rcases hc with rfl | rfl <;> simp [dashSp] at h <;> exact absurd h (by decide)
  · push_neg at hc
    simpa [dashSp, hc.1, hc.2] using h

theorem yearAt_map {f : Char → Char}
    (tr : ∀ c d, isDigitC d = true → f c = d → c = d)
    (hdg : ∀ c, isDigitC (f c) = true → isDigitC c = true)
    {m : Str} (h : yearAt (m.map f) = true) : yearAt m = true := by
  rcases m with _ | ⟨a, _ | ⟨b, _ | ⟨c, _ | ⟨d, m'⟩⟩⟩⟩
  · simp [yearAt] at h
  · simp [yearAt] at h
  · simp [yearAt] at h
  · simp [yearAt] at h
  · simp only [List.map_cons] at h
    simp only [yearAt, Bool.and_eq_true, Bool.or_eq_true, decide_eq_true_iff] at h ⊢
    obtain ⟨⟨hor, hc⟩, hd⟩ := h
    refine ⟨⟨?_, hdg c hc⟩, hdg d hd⟩
    rcases hor with ⟨ha, hb⟩ | ⟨ha, hb⟩
    · exact Or.inl ⟨tr a '1' (by decide) ha, tr b '9' (by decide) hb⟩
    · exact Or.inr ⟨tr a '2' (by decide) ha, tr b '0' (by decide) hb⟩

theorem hasYear_map {f : Char → Char}
    (tr : ∀ c d, isDigitC d = true → f c = d → c = d)
    (hdg : ∀ c, isDigitC (f c) = true → isDigitC c = true)
    {m : Str} (h : hasYear m = false) : hasYear (m.map f) = false := by
  induction m with
  | nil => rfl
  | cons c cs ih =>
    simp only [hasYear, Bool.or_eq_false_iff] at h
    simp only [List.map_cons, hasYear, Bool.or_eq_false_iff]
    refine ⟨?_, ih h.2⟩
    cases hy : yearAt (f c :: List.map f cs) with
    | false => rfl
    | true =>
      rw [show f c :: List.map f cs = (c :: cs).map f from rfl] at hy
      rw [yearAt_map tr hdg hy] at h
      exact absurd h.1 (by simp)

theorem isPrefixCI_map {f : Char → Char} {t : Str}
    (hf : ∀ c d, d ≠ ' ' → lowerC (f c) = d → lowerC c = d)
    (ht : ∀ ch ∈ t, ch ≠ ' ')
    {m : Str} (h : isPrefixCI t (m.map f) = true) : isPrefixCI t m = true := by
  induction t generalizing m with
  | nil => rfl
  | cons x ts ih =>
    rcases m with _ | ⟨c, m'⟩
    · simp [isPrefixCI] at h
    · simp only [List.map_cons, isPrefixCI, Bool.and_eq_true, beq_iff_eq] at h ⊢
      exact ⟨hf c x (ht x (List.mem_cons_self x ts)) h.1,
        ih (fun ch hch => ht ch (List.mem_cons_of_mem x hch)) h.2⟩

theorem tagAt_map {f : Char → Char} {tags : List Str}
    (hf : ∀ c d, d ≠ ' ' → lowerC (f c) = d → lowerC c = d)
    (htags : ∀ t ∈ tags, ∀ ch ∈ t, ch ≠ ' ')
    {m : Str} (h : tagAt tags (m.map f) = true) : tagAt tags m = true := by
  simp only [tagAt, List.any_eq_true] at h ⊢
  obtain ⟨t, htm, hpre⟩ := h
  exact ⟨t, htm, isPrefixCI_map hf (htags t htm) hpre⟩

theorem hasTag_map {f : Char → Char} {tags : List Str}
    (hf : ∀ c d, d ≠ ' ' → lowerC (f c) = d → lowerC c = d)
    (htags : ∀ t ∈ tags, ∀ ch ∈ t, ch ≠ ' ')
    {m : Str} (h : hasTag tags m = false) : hasTag tags (m.map f) = false := by
  induction m with
  | nil => rfl
  | cons c cs ih =>
    simp only [hasTag, Bool.or_eq_false_iff] at h
    simp only [List.map_cons, hasTag, Bool.or_eq_false_iff]
    refine ⟨?_, ih h.2⟩
    cases ht : tagAt tags (f c :: List.map f cs) with
    | false => rfl
    | true =>
      rw [show f c :: List.map f cs = (c :: cs).map f from rfl] at ht
      rw [tagAt_map hf htags ht] at h
      exact absurd h.1 (by simp)

theorem dotSp_lower_tr : ∀ c d : Char, d ≠ ' ' → lowerC (dotSp c) = d → lowerC c = d := by
  intro c d hd h
  by_cases hc : c = '.'
  · subst hc
    rw [show dotSp '.' = ' ' from rfl] at h
    rw [show lowerC ' ' = ' ' from rfl] at h
    exact absurd h.symm hd
  · rwa [show dotSp c = c from by simp [dotSp, hc]] at h

theorem dashSp_lower_tr : ∀ c d : Char, d ≠ ' ' → lowerC (dashSp c) = d → lowerC c = d := by
  intro c d hd h
  by_cases hc : c = '_' ∨ c = '-'
  · have he : dashSp c = ' ' := by rcases hc with rfl | rfl <;> rfl
    rw [he, show lowerC ' ' = ' ' from rfl] at h
    exact absurd h.symm hd
  · push_neg at hc
    rwa [show dashSp c = c from by simp [dashSp, hc.1, hc.2]] at h

theorem lowerC_lower_tr : ∀ c d : Char, d ≠ ' ' → lowerC (lowerC c) = d → lowerC c = d := by
  intro c d _ h
  rwa [lowerC_lowerC] at h

theorem isDigitC_not_space {c : Char} (h : isDigitC c = true) : pyIsSpace c = false :=
  pyIsSpace_of_toNat_big (by have := isDigitC_toNat h; omega)

theorem collapse_cons_ws_ws {c d : Char} (cs : Str) (hc : pyIsSpace c = true)
    (hd : pyIsSpace d = true) :
    collapseWs (c :: d :: cs) = collapseWs (d :: cs) := by
  simp [collapseWs, hc, hd]

theorem collapse_cons_ws_nws {c d : Char} (cs : Str) (hc : pyIsSpace c = true)
    (hd : pyIsSpace d = false) :
    collapseWs (c :: d :: cs) = ' ' :: collapseWs (d :: cs) := by
  simp [collapseWs, hc, hd]

theorem collapse_cons_nws {c : Char} (cs : Str) (hc : pyIsSpace c = false) :
    collapseWs (c :: cs) = c :: collapseWs cs := by
  cases cs with
  | nil => simp [collapseWs, hc]
  | cons d cs' => simp [collapseWs, hc]

theorem collapse_ws_head {c : Char} (cs : Str) (hc : pyIsSpace c = true) :
    ∃ r, collapseWs (c :: cs) = ' ' :: r := by
  induction cs generalizing c with
  | nil => exact ⟨[], by simp [collapseWs, hc]⟩
  | cons d cs' ih =>
    cases hd : pyIsSpace d with
    | true =>
      obtain ⟨r, hr⟩ := ih hd
      exact ⟨r, by rw [collapse_cons_ws_ws cs' hc hd, hr]⟩
    | false => exact ⟨collapseWs (d :: cs'), collapse_cons_ws_nws cs' hc hd⟩

theorem collapse_head_nonws {m : Str} {a : Char} {rest : Str}
    (hE : collapseWs m = a :: rest) (ha : pyIsSpace a = false) :
    ∃ m', m = a :: m' ∧ collapseWs m' = rest := by
  cases m with
  | nil => simp [collapseWs] at hE
  | cons c cs =>
    cases hc : pyIsSpace c with
    | true =>
      obtain ⟨r, hr⟩ := collapse_ws_head cs hc
      rw [hr] at hE
      have : a = ' ' := (List.cons_eq_cons.mp hE).1.symm
      subst this
      simp [pyIsSpace] at ha
    | false =>
      rw [collapse_cons_nws cs hc] at hE
      obtain ⟨h1, h2⟩ := List.cons_eq_cons.mp hE
      exact ⟨cs, by rw [h1], h2⟩

theorem collapse_P1 (l : Str) : ∀ x ∈ collapseWs l, pyIsSpace x = true → x = ' ' := by
  induction l with
  | nil => simp [collapseWs]
  | cons c cs ih =>
    cases cs with
    | nil =>
      cases hc : pyIsSpace c with
      | true =>
        intro x hx _
        simp [collapseWs, hc] at hx
        exact hx
      | false =>
        intro x hx hw
        simp [collapseWs, hc] at hx
        subst hx
        rw [hc] at hw
        cases hw
    | cons d cs' =>
      cases hc : pyIsSpace c with
      | true =>
        cases hd : pyIsSpace d with
        | true =>
          rw [collapse_cons_ws_ws cs' hc hd]
          exact ih
        | false =>
          rw [collapse_cons_ws_nws cs' hc hd]
          intro x hx hw
          rcases List.mem_cons.mp hx with rfl | hx'
          · rfl
          · exact ih x hx' hw
      | false =>
        rw [collapse_cons_nws (d :: cs') hc]
        intro x hx hw
        rcases List.mem_cons.mp hx with rfl | hx'
        · rw [hc] at hw
          cases hw
        · exact ih x hx' hw

theorem collapse_P2 (l : Str) :
    List.Chain' (fun a b => ¬(pyIsSpace a = true ∧ pyIsSpace b = true)) (collapseWs l) := by
  induction l with
  | nil => simp [collapseWs]
  | cons c cs ih =>
    cases cs with
    | nil =>
      cases hc : pyIsSpace c with
      | true => simp [collapseWs, hc]
      | false => simp [collapseWs, hc]
    | cons d cs' =>
      cases hc : pyIsSpace c with
      | true =>
        cases hd : pyIsSpace d with
        | true =>
          rw [collapse_cons_ws_ws cs' hc hd]
          exact ih
        | false =>
          rw [collapse_cons_ws_nws cs' hc hd]
          rw [List.chain'_cons']
          refine ⟨?_, ih⟩
          intro y hy
          rw [collapse_cons_nws cs' hd] at hy
          simp at hy
          subst hy
          rw [hd]
          simp
      | false =>
        rw [collapse_cons_nws (d :: cs') hc]
        rw [List.chain'_cons']
        refine ⟨?_, ih⟩
        intro y _
        rw [hc]
        simp

theorem collapse_eq_self {l : Str}
    (h1 : ∀ x ∈ l, pyIsSpace x = true → x = ' ')
    (h2 : List.Chain' (fun a b => ¬(pyIsSpace a = true ∧ pyIsSpace b = true)) l) :
    collapseWs l = l := by
  induction l with
  | nil => rfl
  | cons c cs ih =>
    cases cs with
    | nil =>
      cases hc : pyIsSpace c with
      | true =>
        have : c = ' ' := h1 c (List.mem_cons_self c []) hc
        subst this
        rfl
      | false => simp [collapseWs, hc]
    | cons d cs' =>
      cases hc : pyIsSpace c with
      | true =>
        have hcd := (List.chain'_cons.mp h2).1
        have hd : pyIsSpace d = false := by
          cases hd' : pyIsSpace d with
          | false => rfl
          | true => exact absurd ⟨hc, hd'⟩ hcd
        rw [collapse_cons_ws_nws cs' hc hd]
        have hc' : c = ' ' := h1 c (List.mem_cons_self c (d :: cs')) hc
        rw [ih (fun x hx => h1 x (List.mem_cons_of_mem c hx)) (List.chain'_cons.mp h2).2,
          hc']
      | false =>
        rw [collapse_cons_nws (d :: cs') hc]
        rw [ih (fun x hx => h1 x (List.mem_cons_of_mem c hx)) (List.chain'_cons.mp h2).2]

theorem mem_collapse {l : Str} : ∀ x ∈ collapseWs l, x ∈ l ∨ x = ' ' := by
  induction l with
  | nil => simp [collapseWs]
  | cons c cs ih =>
    cases cs with
    | nil =>
      cases hc : pyIsSpace c with
      | true =>
        intro x hx
        simp [collapseWs, hc] at hx
        exact Or.inr hx
      | false =>
        intro x hx
        simp [collapseWs, hc] at hx
        exact Or.inl (by simp [hx])
    | cons d cs' =>
      cases hc : pyIsSpace c with
      | true =>
        cases hd : pyIsSpace d with
        | true =>
          rw [collapse_cons_ws_ws cs' hc hd]
          intro x hx
          rcases ih x hx with h | h
          · exact Or.inl (List.mem_cons_of_mem c h)
          · exact Or.inr h
        | false =>
          rw [collapse_cons_ws_nws cs' hc hd]
          intro x hx
          rcases List.mem_cons.mp hx with rfl | hx'
          · exact Or.inr rfl
          · rcases ih x hx' with h | h
            · exact Or.inl (List.mem_cons_of_mem c h)
            · exact Or.inr h
      | false =>
        rw [collapse_cons_nws (d :: cs') hc]
        intro x hx
        rcases List.mem_cons.mp hx with rfl | hx'
        · exact Or.inl (List.mem_cons_self x (d :: cs'))
        · rcases ih x hx' with h | h
          · exact Or.inl (List.mem_cons_of_mem c h)
          · exact Or.inr h

theorem yearAt_cons_not12 {c : Char} (h1 : c ≠ '1') (h2 : c ≠ '2') (X : Str) :
    yearAt (c :: X) = false := by
  rcases X with _ | ⟨b, _ | ⟨e, _ | ⟨f, X'⟩⟩⟩ <;> simp [yearAt, h1, h2]

theorem yearAt_collapse {m : Str} (h : yearAt (collapseWs m) = true) : yearAt m = true := by
  rcases hE : collapseWs m with _ | ⟨a, _ | ⟨b, _ | ⟨c2, _ | ⟨d, rest⟩⟩⟩⟩ <;> rw [hE] at h
  · simp [yearAt] at h
  · simp [yearAt] at h
  · simp [yearAt] at h
  · simp [yearAt] at h
  · simp only [yearAt, Bool.and_eq_true, Bool.or_eq_true, decide_eq_true_iff] at h
    obtain ⟨⟨hor, hc⟩, hd⟩ := h
    have ha_nws : pyIsSpace a = false := by
      rcases hor with ⟨rfl, _⟩ | ⟨rfl, _⟩ <;> decide
    have hb_nws : pyIsSpace b = false := by
      rcases hor with ⟨_, rfl⟩ | ⟨_, rfl⟩ <;> decide
    have hc_nws := isDigitC_not_space hc
    have hd_nws := isDigitC_not_space hd
    obtain ⟨m1, rfl, h1⟩ := collapse_head_nonws hE ha_nws
    obtain ⟨m2, rfl, h2⟩ := collapse_head_nonws h1 hb_nws
    obtain ⟨m3, rfl, h3⟩ := collapse_head_nonws h2 hc_nws
    obtain ⟨m4, rfl, h4⟩ := collapse_head_nonws h3 hd_nws
    simp only [yearAt, Bool.and_eq_true, Bool.or_eq_true, decide_eq_true_iff]
    exact ⟨⟨hor, hc⟩, hd⟩

theorem hasYear_collapse {l : Str} (h : hasYear l = false) :
    hasYear (collapseWs l) = false := by
  induction l with
  | nil => rfl
  | cons c cs ih =>
    simp only [hasYear, Bool.or_eq_false_iff] at h
    cases cs with
    | nil =>
      cases hc : pyIsSpace c with
      | true => simp [collapseWs, hc, hasYear, yearAt]
      | false => simp [collapseWs, hc, hasYear, yearAt]
    | cons d cs' =>
      cases hc : pyIsSpace c with
      | true =>
        cases hd : pyIsSpace d with
        | true =>
          rw [collapse_cons_ws_ws cs' hc hd]
          exact ih h.2
        | false =>
          rw [collapse_cons_ws_nws cs' hc hd]
          simp only [hasYear, Bool.or_eq_false_iff]
          exact ⟨yearAt_cons_not12 (by decide) (by decide) _, ih h.2⟩
      | false =>
        rw [collapse_cons_nws (d :: cs') hc]
        simp only [hasYear, Bool.or_eq_false_iff]
        refine ⟨?_, ih h.2⟩
        cases hy : yearAt (c :: collapseWs (d :: cs')) with
        | false => rfl
        | true =>
          rw [← collapse_cons_nws (d :: cs') hc] at hy
          have ht := yearAt_collapse hy
          rw [ht] at h
          simp at h

theorem isPrefixCI_collapse {t : Str} (ht : ∀ ch ∈ t, pyIsSpace ch = false)
    {m : Str} (h : isPrefixCI t (collapseWs m) = true) : isPrefixCI t m = true := by
  induction t generalizing m with
  | nil => rfl
  | cons x ts ih =>
    rcases hE : collapseWs m with _ | ⟨c, rest⟩
    · rw [hE] at h
      simp [isPrefixCI] at h
    · rw [hE] at h
      simp only [isPrefixCI, Bool.and_eq_true, beq_iff_eq] at h
      have hcn : pyIsSpace c = false := by
        cases hcs : pyIsSpace c with
        | false => rfl
        | true =>
          rw [lowerC_of_space hcs] at h
          rw [h.1] at hcs
          have := ht x (List.mem_cons_self x ts)
          rw [this] at hcs
          cases hcs
      obtain ⟨m', rfl, hm'⟩ := collapse_head_nonws hE hcn
      simp only [isPrefixCI, Bool.and_eq_true, beq_iff_eq]
      refine ⟨h.1, ih (fun ch hch => ht ch (List.mem_cons_of_mem x hch)) ?_⟩
      rw [hm']
      exact h.2

theorem tagAt_ws_head {tags : List Str}
    (htags : ∀ t ∈ tags, (∀ ch ∈ t, pyIsSpace ch = false) ∧ t ≠ [])
    {c : Char} (hc : pyIsSpace c = true) (X : Str) : tagAt tags (c :: X) = false := by
  cases hh : tagAt tags (c :: X) with
  | false => rfl
  | true =>
    simp only [tagAt, List.any_eq_true] at hh
    obtain ⟨t, htm, hpre⟩ := hh
    obtain ⟨hts, htn⟩ := htags t htm
    rcases t with _ | ⟨ch, ts⟩
    · exact absurd rfl htn
    · simp only [isPrefixCI, Bool.and_eq_true, beq_iff_eq] at hpre
      rw [lowerC_of_space hc] at hpre
      have hcw := hts ch (List.mem_cons_self ch ts)
      rw [← hpre.1] at hcw
      rw [hc] at hcw
      cases hcw

theorem hasTag_collapse {tags : List Str}
    (htags : ∀ t ∈ tags, (∀ ch ∈ t, pyIsSpace ch = false) ∧ t ≠ [])
    {l : Str} (h : hasTag tags l = false) : hasTag tags (collapseWs l) = false := by
  induction l with
  | nil => rfl
  | cons c cs ih =>
    simp only [hasTag, Bool.or_eq_false_iff] at h
    cases cs with
    | nil =>
      cases hc : pyIsSpace c with
      | true =>
        have he : collapseWs [c] = [' '] := by simp [collapseWs, hc]
        rw [he]
        simp only [hasTag, Bool.or_eq_false_iff]
        exact ⟨tagAt_ws_head htags (by decide) [], trivial⟩
      | false =>
        have he : collapseWs [c] = [c] := by simp [collapseWs, hc]
        rw [he]
        simp only [hasTag, Bool.or_eq_false_iff]
        exact ⟨h.1, trivial⟩
    | cons d cs' =>
      cases hc : pyIsSpace c with
      | true =>
        cases hd : pyIsSpace d with
        | true =>
          rw [collapse_cons_ws_ws cs' hc hd]
          exact ih h.2
        | false =>
          rw [collapse_cons_ws_nws cs' hc hd]
          simp only [hasTag, Bool.or_eq_false_iff]
          exact ⟨tagAt_ws_head htags (by decide) _, ih h.2⟩
      | false =>
        rw [collapse_cons_nws (d :: cs') hc]
        simp only [hasTag, Bool.or_eq_false_iff]
        refine ⟨?_, ih h.2⟩
        cases hTT : tagAt tags (c :: collapseWs (d :: cs')) with
        | false => rfl
        | true =>
          have htt : tagAt tags (c :: d :: cs') = true := by
            simp only [tagAt, List.any_eq_true] at hTT ⊢
            obtain ⟨t, htm, hpre⟩ := hTT
            rw [← collapse_cons_nws (d :: cs') hc] at hpre
            exact ⟨t, htm, isPrefixCI_collapse (htags t htm).1 hpre⟩
          rw [htt] at h
          simp at h

theorem dropWhile_head_not {p : Char → Bool} {l : Str} {c : Char} {r : Str}
    (h : l.dropWhile p = c :: r) : p c = false := by
  induction l with
  | nil => simp [List.dropWhile] at h
  | cons a as ih =>
    rw [List.dropWhile_cons] at h
    by_cases hp : p a
    · rw [if_pos hp] at h
      exact ih h
    · rw [if_neg hp] at h
      obtain ⟨h1, _⟩ := List.cons_eq_cons.mp h
      rw [← h1]
      exact Bool.eq_false_iff.mpr hp

theorem trimWs_pre (l : Str) : trimWs l <+: l.dropWhile pyIsSpace := by
  unfold trimWs
  have h3 : (l.dropWhile pyIsSpace).reverse.dropWhile pyIsSpace <:+
      (l.dropWhile pyIsSpace).reverse := List.dropWhile_suffix _
  exact List.reverse_suffix.mp (by rw [List.reverse_reverse]; exact h3)

theorem inf_of_pre {p l : Str} (h : p <+: l) : p <:+: l := by
  obtain ⟨t, rfl⟩ := h
  exact ⟨[], t, rfl⟩

theorem inf_of_suf {p l : Str} (h : p <:+ l) : p <:+: l := by
  obtain ⟨t, rfl⟩ := h
  exact ⟨t, [], by simp⟩

theorem trimWs_inf (l : Str) : trimWs l <:+: l :=
  List.IsInfix.trans (inf_of_pre (trimWs_pre l))
    (inf_of_suf (List.dropWhile_suffix pyIsSpace))

theorem trimWs_head_not {l : Str} {c : Char} {r : Str} (h : trimWs l = c :: r) :
    pyIsSpace c = false := by
  have h2 := trimWs_pre l
  rw [h] at h2
  obtain ⟨t, ht⟩ := h2
  rw [List.cons_append] at ht
  exact dropWhile_head_not ht.symm

theorem trimWs_getLast_not {l : Str} {c : Char} (h : (trimWs l).getLast? = some c) :
    pyIsSpace c = false := by
  unfold trimWs at h
  rw [List.getLast?_reverse] at h
  rcases hE : (l.dropWhile pyIsSpace).reverse.dropWhile pyIsSpace with _ | ⟨c', r⟩
  · rw [hE] at h
    simp at h
  · rw [hE] at h
    simp only [List.head?_cons, Option.some.injEq] at h
    rw [← h]
    exact dropWhile_head_not hE

theorem trimWs_eq_self {l : Str}
    (hh : ∀ c, l.head? = some c → pyIsSpace c = false)
    (hl : ∀ c, l.getLast? = some c → pyIsSpace c = false) : trimWs l = l := by
  have e1 : l.dropWhile pyIsSpace = l := by
    cases l with
    | nil => rfl
    | cons c cs =>
      rw [List.dropWhile_cons, if_neg]
      rw [hh c rfl]
      simp
  unfold trimWs
  rw [e1]
  have e2 : l.reverse.dropWhile pyIsSpace = l.reverse := by
    rcases hr : l.reverse with _ | ⟨c, cs⟩
    · rfl
    · have hgl : l.getLast? = some c := by
        rw [← List.head?_reverse, hr]
        rfl
      rw [List.dropWhile_cons, if_neg]
      rw [hl c hgl]
      simp
  rw [e2, List.reverse_reverse]

theorem stripWord_suffix {w l r : Str} (h : stripWord w l = some r) : r <:+ l := by
  unfold stripWord at h
  by_cases hp : w.isPrefixOf l
  · rw [if_pos hp] at h
    rcases hd : l.drop w.length with _ | ⟨c, cs⟩ <;> rw [hd] at h
    · simp at h
    · dsimp only at h
      by_cases hw : pyIsSpace c
      · rw [if_pos hw] at h
        simp only [Option.some.injEq] at h
        subst h
        have h1 : cs.dropWhile pyIsSpace <:+ cs := List.dropWhile_suffix _
        have h2 : cs <:+ c :: cs := ⟨[c], rfl⟩
        have h3 : c :: cs <:+ l := by
          rw [← hd]
          exact List.drop_suffix w.length l
        exact h1.trans (h2.trans h3)
      · rw [if_neg hw] at h
        simp at h
  · rw [if_neg hp] at h
    simp at h

theorem stripWord_head_not {w l r : Str} (h : stripWord w l = some r)
    {c : Char} {rr : Str} (hr : r = c :: rr) : pyIsSpace c = false := by
  unfold stripWord at h
  by_cases hp : w.isPrefixOf l
  · rw [if_pos hp] at h
    rcases hd : l.drop w.length with _ | ⟨c', cs⟩ <;> rw [hd] at h
    · simp at h
    · dsimp only at h
      by_cases hw : pyIsSpace c'
      · rw [if_pos hw] at h
        simp only [Option.some.injEq] at h
        rw [hr] at h
        exact dropWhile_head_not h
      · rw [if_neg hw] at h
        simp at h
  · rw [if_neg hp] at h
    simp at h

theorem articleSplit_some {l r : Str} (h : articleSplit l = some r) :
    r <:+ l ∧ ∀ c rr, r = c :: rr → pyIsSpace c = false := by
  unfold articleSplit at h
  rcases h1 : stripWord "the".data l with _ | r1 <;> rw [h1] at h
  · rcases h2 : stripWord "a".data l with _ | r2 <;> rw [h2] at h
    · rcases h3 : stripWord "an".data l with _ | r3 <;> rw [h3] at h
      · simp at h
      · simp only [Option.some.injEq] at h
        subst h
        exact ⟨stripWord_suffix h3, fun c rr hr => stripWord_head_not h3 hr⟩
    · simp only [Option.some.injEq] at h
      subst h
      exact ⟨stripWord_suffix h2, fun c rr hr => stripWord_head_not h2 hr⟩
  · simp only [Option.some.injEq] at h
    subst h
    exact ⟨stripWord_suffix h1, fun c rr hr => stripWord_head_not h1 hr⟩

theorem stripArticle_suffix (l : Str) : stripArticle l <:+ l := by
  unfold stripArticle
  cases hA : articleSplit l with
  | none => exact List.suffix_refl l
  | some r => exact (articleSplit_some hA).1

theorem stripArticle_eq_self {l : Str} (h : articleMatches l = false) :
    stripArticle l = l := by
  unfold stripArticle
  cases hA : articleSplit l with
  | none => rfl
  | some r =>
    rw [articleMatches, hA] at h
    simp at h

theorem getLast?_of_suffix {p l : Str} (h : p <:+ l) (hp : p ≠ []) :
    p.getLast? = l.getLast? := by
  obtain ⟨s, rfl⟩ := h
  rw [List.getLast?_append]
  rcases hE : p.getLast? with _ | c
  · rw [List.getLast?_eq_none_iff] at hE
    exact absurd hE hp
  · rfl

theorem map_eq_self_of {f : Char → Char} {l : Str} (h : ∀ c ∈ l, f c = c) :
    l.map f = l := by
  induction l with
  | nil => rfl
  | cons c cs ih =>
    rw [List.map_cons, h c (List.mem_cons_self c cs),
      ih (fun x hx => h x (List.mem_cons_of_mem c hx))]

theorem dotSp_id {c : Char} (h : c ≠ '.') : dotSp c = c := by
  simp [dotSp, h]

theorem dashSp_id {c : Char} (h1 : c ≠ '_') (h2 : c ≠ '-') : dashSp c = c := by
  simp [dashSp, h1, h2]

theorem splitSlash_ne_nil (l : Str) : splitSlash l ≠ [] := by
  cases l with
  | nil => simp [splitSlash]
  | cons c cs =>
    unfold splitSlash
    by_cases hc : c = '/'
    · simp [hc]
    · rw [if_neg hc]
      cases splitSlash cs <;> simp

theorem splitSlash_no_slash (l : Str) : ∀ p ∈ splitSlash l, '/' ∉ p := by
  induction l with
  | nil =>
    intro p hp
    simp [splitSlash] at hp
    simp [hp]
  | cons c cs ih =>
    intro p hp
    unfold splitSlash at hp
    by_cases hc : c = '/'
    · rw [if_pos hc] at hp
      rcases List.mem_cons.mp hp with rfl | hp'
      · simp
      · exact ih p hp'
    · rw [if_neg hc] at hp
      rcases hE : splitSlash cs with _ | ⟨q, qs⟩
      · exact absurd hE (splitSlash_ne_nil cs)
      · rw [hE] at hp
        rcases List.mem_cons.mp hp with rfl | hp'
        · intro hm
          rcases List.mem_cons.mp hm with he | hm'
          · exact hc he.symm
          · exact ih q (hE ▸ List.mem_cons_self q qs) hm'
        · exact ih p (hE ▸ List.mem_cons_of_mem q hp')

theorem getD_last_cases (ls : List Str) :
    (ls.getLast?).getD [] ∈ ls ∨ (ls.getLast?).getD [] = [] := by
  rcases hne : ls with _ | ⟨x, xs⟩
  · right
    rfl
  · left
    have hx := List.getLast?_eq_getLast (x :: xs) (by simp)
    rw [hx]
    simp only [Option.getD_some]
    exact List.getLast_mem _

theorem pathName_no_slash (l : Str) : '/' ∉ pathName l := by
  have hc := getD_last_cases ((splitSlash l).filter (fun p => !p.isEmpty && !(p == ['.'])))
  have he : pathName l =
      (((splitSlash l).filter (fun p => !p.isEmpty && !(p == ['.']))).getLast?).getD [] := rfl
  rw [he]
  rcases hc with h | h
  · exact fun hm =>
      splitSlash_no_slash l _ (List.mem_of_mem_filter h) hm
  · rw [h]
    simp

theorem lastDotSplit_eq {l p q : Str} (h : lastDotSplit l = some (p, q)) :
    l = p ++ '.' :: q := by
  induction l generalizing p q with
  | nil => simp [lastDotSplit] at h
  | cons c cs ih =>
    unfold lastDotSplit at h
    rcases hE : lastDotSplit cs with _ | ⟨p', q'⟩ <;> rw [hE] at h
    · by_cases hc : c = '.'
      · rw [if_pos hc] at h
        simp only [Option.some.injEq, Prod.mk.injEq] at h
        rw [← h.1, ← h.2, hc]
        rfl
      · rw [if_neg hc] at h
        simp at h
    · simp only [Option.some.injEq, Prod.mk.injEq] at h
      rw [← h.1, ← h.2]
      rw [List.cons_append]
      rw [← ih hE]

theorem dropExt_pre (n : Str) : dropExt n <+: n := by
  rcases hE : lastDotSplit n with _ | ⟨p, q⟩
  · simp only [dropExt, hE]
    exact List.prefix_refl n
  · simp only [dropExt, hE]
    by_cases hc : p ≠ [] ∧ q ≠ []
    · rw [if_pos hc]
      exact ⟨'.' :: q, (lastDotSplit_eq hE).symm⟩
    · rw [if_neg hc]

theorem pathStem_no_slash (l : Str) : '/' ∉ pathStem l := by
  intro hm
  exact pathName_no_slash l ((dropExt_pre (pathName l)).subset hm)

theorem pathStem_eq_self {l : Str} (h1 : '/' ∉ l) (h2 : '.' ∉ l) :
    pathStem l = l := by
  cases l with
  | nil => rfl
  | cons c cs =>
    have hnd : c :: cs ≠ ['.'] := by
      intro he
      rw [he] at h2
      simp at h2
    unfold pathStem
    rw [pathName_of_simple _ h1 (by simp) hnd]
    simp only [dropExt, lastDotSplit_of_no_dot _ h2]

theorem hasYear_false_pre {p l : Str} (hp : p <+: l) (h : hasYear l = false) :
    hasYear p = false := by
  cases hy : hasYear p with
  | false => rfl
  | true =>
    rw [hasYear_of_pre hp hy] at h
    exact h

theorem hasYear_false_suf {p l : Str} (hp : p <:+ l) (h : hasYear l = false) :
    hasYear p = false := by
  cases hy : hasYear p with
  | false => rfl
  | true =>
    rw [hasYear_of_suf hp hy] at h
    exact h

theorem hasYear_false_inf {p l : Str} (hp : p <:+: l) (h : hasYear l = false) :
    hasYear p = false := by
  cases hy : hasYear p with
  | false => rfl
  | true =>
    rw [hasYear_of_inf hp hy] at h
    exact h

theorem hasTag_false_pre {tags : List Str} {p l : Str} (hp : p <+: l)
    (h : hasTag tags l = false) : hasTag tags p = false := by
  cases hy : hasTag tags p with
  | false => rfl
  | true =>
    rw [hasTag_of_pre hp hy] at h
    exact h

theorem hasTag_false_suf {tags : List Str} {p l : Str} (hp : p <:+ l)
    (h : hasTag tags l = false) : hasTag tags p = false := by
  cases hy : hasTag tags p with
  | false => rfl
  | true =>
    rw [hasTag_of_suf hp hy] at h
    exact h

theorem hasTag_false_inf {tags : List Str} {p l : Str} (hp : p <:+: l)
    (h : hasTag tags l = false) : hasTag tags p = false := by
  cases hy : hasTag tags p with
  | false => rfl
  | true =>
    rw [hasTag_of_inf hp hy] at h
    exact h

theorem not_mem_map_of {f : Char → Char} {y : Char} {l : Str}
    (hf : ∀ c, f c = y → c = y) (h : y ∉ l) : y ∉ l.map f := by
  intro hm
  obtain ⟨c, hc, he⟩ := List.mem_map.mp hm
  exact h (hf c he ▸ hc)

theorem not_mem_collapse {y : Char} {l : Str} (hy : y ≠ ' ') (h : y ∉ l) :
    y ∉ collapseWs l := by
  intro hm
  rcases mem_collapse y hm with hm' | hm'
  · exact h hm'
  · exact hy hm'

theorem dotSp_ne_dot (c : Char) : dotSp c ≠ '.' := by
  by_cases hc : c = '.'
  · subst hc
    decide
  · simp [dotSp, hc]

theorem dashSp_ne_und (c : Char) : dashSp c ≠ '_' := by
  by_cases hc : c = '_' ∨ c = '-'
  · have : dashSp c = ' ' := by rcases hc with rfl | rfl <;> rfl
    rw [this]
    decide
  · push_neg at hc
    rw [dashSp_id hc.1 hc.2]
    exact hc.1

theorem dashSp_ne_dash (c : Char) : dashSp c ≠ '-' := by
  by_cases hc : c = '_' ∨ c = '-'
  · have : dashSp c = ' ' := by rcases hc with rfl | rfl <;> rfl
    rw [this]
    decide
  · push_neg at hc
    rw [dashSp_id hc.1 hc.2]
    exact hc.2

theorem not_mem_map_all {f : Char → Char} {y : Char} (hf : ∀ c, f c ≠ y) (l : Str) :
    y ∉ l.map f := by
  intro hm
  obtain ⟨c, _, he⟩ := List.mem_map.mp hm
  exact hf c he

theorem chain_of_inf {R : Char → Char → Prop} {p l : Str} (hp : p <:+: l)
    (h : List.Chain' R l) : List.Chain' R p := by
  obtain ⟨u, v, rfl⟩ := hp
  have h1 := (List.chain'_append.mp h).1
  exact (List.chain'_append.mp h1).2.1

set_option maxHeartbeats 1600000 in
/-- Structure of the normalizer's output: no dot/underscore/hyphen/slash,
fully lowercased, whitespace collapsed to single spaces with none at either
end. (A year token or release tag can survive into the output when an
interior newline in the input defeats the truncation regexes' `.*$`, so
year- and tag-freedom are not output invariants.) -/
theorem normalized_title_props (s : Str) :
    '/' ∉ (get_normalized_title s).normalized_title ∧
    '.' ∉ (get_normalized_title s).normalized_title ∧
    '_' ∉ (get_normalized_title s).normalized_title ∧
    '-' ∉ (get_normalized_title s).normalized_title ∧
    (∀ x ∈ (get_normalized_title s).normalized_title, pyIsSpace x = true → x = ' ') ∧
    List.Chain' (fun a b => ¬(pyIsSpace a = true ∧ pyIsSpace b = true))
      (get_normalized_title s).normalized_title ∧
    (∀ x ∈ (get_normalized_title s).normalized_title, lowerC x = x) ∧
    (∀ c, (get_normalized_title s).normalized_title.head? = some c →
      pyIsSpace c = false) ∧
    (∀ c, (get_normalized_title s).normalized_title.getLast? = some c →
      pyIsSpace c = false) := by
  have hfrm : (get_normalized_title s).normalized_title =
      stripArticle ((trimWs (collapseWs
        (((truncTags normTags (truncYear (pathStem s))).map dotSp).map dashSp))).map
          lowerC) := rfl
  rw [hfrm]
  set X2 := truncTags normTags (truncYear (pathStem s)) with hX2
  set X3 := X2.map dotSp with hX3
  set X4 := X3.map dashSp with hX4
  set X5 := collapseWs X4 with hX5
  set X6 := trimWs X5 with hX6
  set X7 := X6.map lowerC with hX7
  -- character non-membership down the pipeline
  have hs2 : '/' ∉ X2 := fun hm =>
    pathStem_no_slash s
      (truncYear_subset (pathStem s) _ (truncTags_subset normTags _ _ hm))
  have hs3 : '/' ∉ X3 := not_mem_map_of (fun c h => dotSp_eq (by decide) h) hs2
  have hs4 : '/' ∉ X4 := not_mem_map_of (fun c h => dashSp_eq (by decide) h) hs3
  have hs5 : '/' ∉ X5 := not_mem_collapse (by decide) hs4
  have hs6 : '/' ∉ X6 := fun hm => hs5 ((trimWs_inf X5).subset hm)
  have hs7 : '/' ∉ X7 :=
    not_mem_map_of (fun c h => lowerC_eq_low (by decide) h) hs6
  have hd3 : '.' ∉ X3 := not_mem_map_all dotSp_ne_dot X2
  have hd4 : '.' ∉ X4 := not_mem_map_of (fun c h => dashSp_eq (by decide) h) hd3
  have hd5 : '.' ∉ X5 := not_mem_collapse (by decide) hd4
  have hd6 : '.' ∉ X6 := fun hm => hd5 ((trimWs_inf X5).subset hm)
  have hd7 : '.' ∉ X7 :=
    not_mem_map_of (fun c h => lowerC_eq_low (by decide) h) hd6
  have hu4 : '_' ∉ X4 := not_mem_map_all dashSp_ne_und X3
  have hu5 : '_' ∉ X5 := not_mem_collapse (by decide) hu4
  have hu6 : '_' ∉ X6 := fun hm => hu5 ((trimWs_inf X5).subset hm)
  have hu7 : '_' ∉ X7 :=
    not_mem_map_of (fun c h => lowerC_eq_low (by decide) h) hu6
  have hh4 : '-' ∉ X4 := not_mem_map_all dashSp_ne_dash X3
  have hh5 : '-' ∉ X5 := not_mem_collapse (by decide) hh4
  have hh6 : '-' ∉ X6 := fun hm => hh5 ((trimWs_inf X5).subset hm)
  have hh7 : '-' ∉ X7 :=
    not_mem_map_of (fun c h => lowerC_eq_low (by decide) h) hh6
  -- collapsed-whitespace shape
  have hP15 : ∀ x ∈ X5, pyIsSpace x = true → x = ' ' := collapse_P1 X4
  have hP25 : List.Chain' (fun a b => ¬(pyIsSpace a = true ∧ pyIsSpace b = true)) X5 :=
    collapse_P2 X4
  have hP16 : ∀ x ∈ X6, pyIsSpace x = true → x = ' ' := fun x hx =>
    hP15 x ((trimWs_inf X5).subset hx)
  have hP26 : List.Chain' (fun a b => ¬(pyIsSpace a = true ∧ pyIsSpace b = true)) X6 :=
    chain_of_inf (trimWs_inf X5) hP25
  have hP17 : ∀ x ∈ X7, pyIsSpace x = true → x = ' ' := by
    intro x hx hw
    obtain ⟨c, hc, rfl⟩ := List.mem_map.mp hx
    rw [pyIsSpace_lowerC] at hw
    rw [hP16 c hc hw]
    rfl
  have hP27 : List.Chain' (fun a b => ¬(pyIsSpace a = true ∧ pyIsSpace b = true)) X7 := by
    rw [hX7, List.chain'_map]
    refine hP26.imp ?_
    intro a b hab
    rw [pyIsSpace_lowerC, pyIsSpace_lowerC]
    exact hab
  -- all lowered
  have hlow7 : ∀ x ∈ X7, lowerC x = x := by
    intro x hx
    obtain ⟨c, _, rfl⟩ := List.mem_map.mp hx
    exact lowerC_lowerC c
  -- head and last of X6/X7
  have h6head : ∀ c, X6.head? = some c → pyIsSpace c = false := by
    intro c hc
    rcases hX : X6 with _ | ⟨c', r⟩
    · rw [hX] at hc
      simp at hc
    · rw [hX] at hc
      simp only [List.head?_cons, Option.some.injEq] at hc
      rw [← hc]
      exact trimWs_head_not hX
  have h6last : ∀ c, X6.getLast? = some c → pyIsSpace c = false := by
    intro c hc
    exact trimWs_getLast_not hc
  have h7head : ∀ c, X7.head? = some c → pyIsSpace c = false := by
    intro c hc
    rw [hX7, List.head?_map] at hc
    rcases hE : X6.head? with _ | c0
    · rw [hE] at hc
      exact Option.noConfusion hc
    · rw [hE] at hc
      have hc' : some (lowerC c0) = some c := hc
      obtain rfl := Option.some.inj hc'
      rw [pyIsSpace_lowerC]
      exact h6head c0 hE
  have h7last : ∀ c, X7.getLast? = some c → pyIsSpace c = false := by
    intro c hc
    rw [hX7, List.getLast?_map] at hc
    rcases hE : X6.getLast? with _ | c0
    · rw [hE] at hc
      exact Option.noConfusion hc
    · rw [hE] at hc
      have hc' : some (lowerC c0) = some c := hc
      obtain rfl := Option.some.inj hc'
      rw [pyIsSpace_lowerC]
      exact h6last c0 hE
  -- transfer everything through stripArticle
  have hsuf : stripArticle X7 <:+ X7 := stripArticle_suffix X7
  refine ⟨fun hm => hs7 (hsuf.subset hm), fun hm => hd7 (hsuf.subset hm),
    fun hm => hu7 (hsuf.subset hm), fun hm => hh7 (hsuf.subset hm),
    fun x hx => hP17 x (hsuf.subset hx),
    chain_of_inf (inf_of_suf hsuf) hP27,
    fun x hx => hlow7 x (hsuf.subset hx), ?_, ?_⟩
  · -- head of stripArticle X7
    intro c hc
    unfold stripArticle at hc
    cases hA : articleSplit X7 with
    | none =>
      rw [hA] at hc
      simp only [Option.getD_none] at hc
      exact h7head c hc
    | some r =>
      rw [hA] at hc
      simp only [Option.getD_some] at hc
      rcases hr : r with _ | ⟨c', rr⟩
      · rw [hr] at hc
        simp at hc
      · rw [hr] at hc
        simp only [List.head?_cons, Option.some.injEq] at hc
        rw [← hc]
        exact (articleSplit_some hA).2 c' rr hr
  · -- last of stripArticle X7
    intro c hc
    have hTne : stripArticle X7 ≠ [] := by
      intro he
      rw [he] at hc
      simp at hc
    rw [getLast?_of_suffix hsuf hTne] at hc
    exact h7last c hc

/-- Re-normalizing a string with the structure of a normalizer output (and
no leading article) is the identity: every stage of the pipeline fixes it. -/
theorem normalize_title_again {t : Str}
    (hY : hasYear t = false) (hT : hasTag normTags t = false)
    (hs : '/' ∉ t) (hd : '.' ∉ t) (hu : '_' ∉ t) (hh : '-' ∉ t)
    (hP1 : ∀ x ∈ t, pyIsSpace x = true → x = ' ')
    (hP2 : List.Chain' (fun a b => ¬(pyIsSpace a = true ∧ pyIsSpace b = true)) t)
    (hlow : ∀ x ∈ t, lowerC x = x)
    (hhd : ∀ c, t.head? = some c → pyIsSpace c = false)
    (hlast : ∀ c, t.getLast? = some c → pyIsSpace c = false)
    (hart : articleMatches t = false) :
    (get_normalized_title t).normalized_title = t := by
  have hfrm : (get_normalized_title t).normalized_title =
      stripArticle ((trimWs (collapseWs
        (((truncTags normTags (truncYear (pathStem t))).map dotSp).map dashSp))).map
          lowerC) := rfl
  rw [hfrm]
  rw [pathStem_eq_self hs hd]
  rw [truncYear_eq_self hY]
  rw [truncTags_eq_self hT]
  rw [map_eq_self_of (fun c hc => dotSp_id (fun he => hd (he ▸ hc)))]
  rw [map_eq_self_of (fun c hc =>
    dashSp_id (fun he => hu (he ▸ hc)) (fun he => hh (he ▸ hc)))]
  rw [collapse_eq_self hP1 hP2]
  rw [trimWs_eq_self hhd hlast]
  rw [map_eq_self_of hlow]
  exact stripArticle_eq_self hart

/-- C3 counterexample: "The The Matrix" normalizes to "the matrix", whose
re-normalization strips the remaining leading article and yields "matrix",
refuting unconditional idempotence. -/
theorem normalize_idempotent_cex :
    (get_normalized_title
        ((get_normalized_title "The The Matrix".data).normalized_title)).normalized_title ≠
      (get_normalized_title "The The Matrix".data).normalized_title := by
  decide

/-- C3 (amended): the normalizer is idempotent on every normalized title
that does not itself begin with an article ("the", "a", "an") followed by
whitespace and contains neither a year token nor a release tag. (A year or
tag can survive into a normalized title only when an interior newline in
the input defeats the truncation regexes' `.*$`; the newline itself is then
collapsed to a space, so the second pass does truncate and the output
shrinks.) Under these hypotheses every pipeline stage fixes the title. -/
theorem normalize_idempotent_unless_article (s : Str)
    (h : articleMatches ((get_normalized_title s).normalized_title) = false)
    (hY : hasYear ((get_normalized_title s).normalized_title) = false)
    (hT : hasTag normTags ((get_normalized_title s).normalized_title) = false) :
    (get_normalized_title
        ((get_normalized_title s).normalized_title)).normalized_title =
      (get_normalized_title s).normalized_title := by
  obtain ⟨hs, hd, hu, hh, hP1, hP2, hlow, hhd, hlast⟩ :=
    normalized_title_props s
  exact normalize_title_again hY hT hs hd hu hh hP1 hP2 hlow hhd hlast h

/-- Witness: the amended C3 theorem applied to "Matrix.1999", whose
normalized title "matrix" starts with no article, contains no year or tag,
and re-normalizes to itself. -/
theorem normalize_idempotent_unless_article_witness :
    articleMatches ((get_normalized_title "Matrix.1999".data).normalized_title) = false ∧
    hasYear ((get_normalized_title "Matrix.1999".data).normalized_title) = false ∧
    hasTag normTags ((get_normalized_title "Matrix.1999".data).normalized_title) = false ∧
    (get_normalized_title
        ((get_normalized_title "Matrix.1999".data).normalized_title)).normalized_title =
      (get_normalized_title "Matrix.1999".data).normalized_title := by
  exact ⟨by decide, by decide, by decide,
    normalize_idempotent_unless_article "Matrix.1999".data (by decide) (by decide)
      (by decide)⟩

end MediaCleaner
